import Mathlib

/-!
Verification of the column-extent inference engine of karrick/columnize.

The Go sources `extents.go` and `circular.go` are shallowly embedded here:
* a line of input is a `List Char` (Go iterates strings rune by rune);
* Go `int` is `Int` (no computation here approaches 64-bit overflow);
* Go byte strings are `List Nat` of byte values, with UTF-8 encoding and
  decoding made explicit, because `fieldsFromExtents` slices the line by
  byte index while counting columns by rune;
* a Go `panic` (index/slice out of range) is `Option.none`, threaded
  through the functions that can reach one;
* loops are recursions; where the recursion is not structural, an explicit
  fuel argument equal to the loop bound of the Go code is used, and the
  fuel-exhausted branch is unreachable for the actual call sites.
-/

namespace Columnize

/-- Extent of one contiguous non-whitespace run: 1-indexed inclusive rune
column positions, from `extents.go`. -/
structure extent where
  l : Int
  r : Int
deriving DecidableEq, Repr

/-- `extent.width`, from `extents.go`: `1 + e.r - e.l`. -/
def width (e : extent) : Int := 1 + e.r - e.l

/-- Model of Go `unicode.IsSpace`: the Unicode White_Space property
(`'\t'`, `'\n'`, `'\v'`, `'\f'`, `'\r'`, `' '`, U+0085, U+00A0, U+1680,
U+2000..U+200A, U+2028, U+2029, U+202F, U+205F, U+3000). -/
def goIsSpace (c : Char) : Bool :=
  let n := c.toNat
  n == 0x09 || n == 0x0A || n == 0x0B || n == 0x0C || n == 0x0D || n == 0x20 ||
  n == 0x85 || n == 0xA0 || n == 0x1680 || (0x2000 ≤ n && n ≤ 0x200A) ||
  n == 0x2028 || n == 0x2029 || n == 0x202F || n == 0x3000 || n == 0x205F

/-- Loop body of `extentsFromLine` (`extents.go`): state is the in-word
flag, the current column, the column where the current word starts, and the
extents accumulated so far; after the loop, a still-open word is closed at
the final column. -/
def extentsFromLineAux : List Char → Bool → Int → Int → List extent → List extent
  | [], inWord, column, wordLeft, ee =>
      if inWord then ee ++ [{ l := wordLeft, r := column }] else ee
  | c :: rest, inWord, column, wordLeft, ee =>
      let column := column + 1
      if goIsSpace c != inWord then
        -- slurping either word or non-word
        extentsFromLineAux rest inWord column wordLeft ee
      else if !inWord then
        -- toggle into a word, record its left column
        extentsFromLineAux rest true column column ee
      else
        -- toggle out of a word, close the extent
        extentsFromLineAux rest false column wordLeft (ee ++ [{ l := wordLeft, r := column - 1 }])

/-- `extentsFromLine` from `extents.go`. -/
def extentsFromLine (line : List Char) : List extent :=
  extentsFromLineAux line false 0 0 []

/-- `attemptMerge` from `extents.go`: `none` when the two extents do not
overlap, otherwise the union-spanning extent. -/
def attemptMerge (ee1 ee2 : extent) : Option extent :=
  if ee1.r < ee2.l then none
  else if ee2.r < ee1.l then none
  else
    let minL := if ee2.l < ee1.l then ee2.l else ee1.l
    let maxR := if ee2.r > ee1.r then ee2.r else ee1.r
    some { l := minL, r := maxR }

/-- Loop of `mergeExtents` (`extents.go`) with explicit fuel.  Each
iteration advances at least one of the two cursors, so
`ee1.length + ee2.length` iterations always suffice; the fuel-exhausted
branch is unreachable from `mergeExtents`. -/
def mergeExtentsAux : Nat → List extent → List extent → List extent
  | _, [], ee2 => ee2
  | _, e1 :: t1, [] => e1 :: t1
  | fuel + 1, e1 :: t1, e2 :: t2 =>
    match attemptMerge e1 e2 with
    | some e => e :: mergeExtentsAux fuel t1 t2
    | none =>
      -- not mergeable, so pick smaller one
      if e1.l < e2.l then e1 :: mergeExtentsAux fuel t1 (e2 :: t2)
      else e2 :: mergeExtentsAux fuel (e1 :: t1) t2
  | 0, _ :: _, _ :: _ => []

/-- `mergeExtents` from `extents.go`. -/
def mergeExtents (ee1 ee2 : List extent) : List extent :=
  mergeExtentsAux (ee1.length + ee2.length) ee1 ee2

/-! ### Byte-level string model

Go strings are byte strings; `fieldsFromExtents` iterates the line rune by
rune but slices it by byte index, so both views are needed.  A rune list is
rendered to bytes by the standard UTF-8 encoding (written with arithmetic
instead of bit operations; the two agree because the bit fields do not
overlap). -/

/-- UTF-8 encoding of one scalar value. -/
def utf8EncodeChar (c : Char) : List Nat :=
  let n := c.toNat
  if n < 0x80 then [n]
  else if n < 0x800 then [0xC0 + n / 64, 0x80 + n % 64]
  else if n < 0x10000 then [0xE0 + n / 4096, 0x80 + n / 64 % 64, 0x80 + n % 64]
  else [0xF0 + n / 262144, 0x80 + n / 4096 % 64, 0x80 + n / 64 % 64, 0x80 + n % 64]

/-- The byte string underlying a line. -/
def lineBytes (line : List Char) : List Nat :=
  (line.map utf8EncodeChar).flatten

/-- Go `utf8.RuneStart`: not a continuation byte. -/
def runeStart (c : Nat) : Bool := c &&& 0xC0 != 0x80

/-- Whether a byte is a UTF-8 continuation byte. -/
def isCont (c : Nat) : Bool := 0x80 ≤ c && c < 0xC0

/-- Go `utf8.DecodeRune` on a byte list: the first rune and its byte size.
Invalid, overlong, surrogate, out-of-range and truncated sequences give
`(0xFFFD, 1)`; the empty string gives `(0xFFFD, 0)`. -/
def decodeRune : List Nat → Nat × Nat
  | [] => (0xFFFD, 0)
  | c0 :: rest =>
    if c0 < 0x80 then (c0, 1)
    else if c0 < 0xC2 then (0xFFFD, 1)
    else if c0 < 0xE0 then
      match rest with
      | c1 :: _ =>
        if isCont c1 then ((c0 - 0xC0) * 64 + (c1 - 0x80), 2) else (0xFFFD, 1)
      | [] => (0xFFFD, 1)
    else if c0 < 0xF0 then
      match rest with
      | c1 :: c2 :: _ =>
        if isCont c1 && isCont c2 then
          let n := (c0 - 0xE0) * 4096 + (c1 - 0x80) * 64 + (c2 - 0x80)
          if n < 0x800 || (0xD800 ≤ n && n ≤ 0xDFFF) then (0xFFFD, 1) else (n, 3)
        else (0xFFFD, 1)
      | _ => (0xFFFD, 1)
    else if c0 < 0xF5 then
      match rest with
      | c1 :: c2 :: c3 :: _ =>
        if isCont c1 && isCont c2 && isCont c3 then
          let n := (c0 - 0xF0) * 262144 + (c1 - 0x80) * 4096 + (c2 - 0x80) * 64 + (c3 - 0x80)
          if n < 0x10000 || 0x10FFFF < n then (0xFFFD, 1) else (n, 4)
        else (0xFFFD, 1)
      | _ => (0xFFFD, 1)
    else (0xFFFD, 1)

/-- Go `utf8.DecodeLastRune`.  The backwards scan for a start byte visits
at most the last three candidate positions before the final byte, so it is
unrolled here exactly as the Go loop bounds it (down to `max (e-4) 0`; when
no start byte is found the Go loop leaves `start = lim - 1`, clamped at 0). -/
def decodeLastRune (bs : List Nat) : Nat × Nat :=
  let e := bs.length
  if e = 0 then (0xFFFD, 0)
  else
    let last := bs.getD (e - 1) 0
    if last < 0x80 then (last, 1)
    else
      let lim : Int := max ((e : Int) - 4) 0
      let start : Int :=
        if (e : Int) - 2 ≥ lim ∧ runeStart (bs.getD (e - 2) 0) then (e : Int) - 2
        else if (e : Int) - 3 ≥ lim ∧ runeStart (bs.getD (e - 3) 0) then (e : Int) - 3
        else if (e : Int) - 4 ≥ lim ∧ runeStart (bs.getD (e - 4) 0) then (e : Int) - 4
        else lim - 1
      let start := if start < 0 then 0 else start
      let rs := decodeRune (bs.drop start.toNat)
      if start + (rs.2 : Int) ≠ (e : Int) then (0xFFFD, 1) else rs

/-- Go `unicode.IsSpace` on a decoded rune value. -/
def goIsSpaceRune (n : Nat) : Bool :=
  n == 0x09 || n == 0x0A || n == 0x0B || n == 0x0C || n == 0x0D || n == 0x20 ||
  n == 0x85 || n == 0xA0 || n == 0x1680 || (0x2000 ≤ n && n ≤ 0x200A) ||
  n == 0x2028 || n == 0x2029 || n == 0x202F || n == 0x3000 || n == 0x205F

/-- ASCII space class used by the fast path of `strings.TrimSpace`. -/
def asciiSpaceByte (c : Nat) : Bool :=
  c == 9 || c == 10 || c == 11 || c == 12 || c == 13 || c == 32

/-- `strings.TrimLeftFunc(s, unicode.IsSpace)`: repeatedly decode the first
rune and drop it while it is a space.  Each step drops at least one byte,
so fuel `bs.length` suffices. -/
def trimLeftSpace : Nat → List Nat → List Nat
  | 0, bs => bs
  | _ + 1, [] => []
  | fuel + 1, b :: t =>
    let rn := decodeRune (b :: t)
    if goIsSpaceRune rn.1 then trimLeftSpace fuel ((b :: t).drop rn.2) else b :: t

/-- `strings.TrimRightFunc(s, unicode.IsSpace)`: repeatedly decode the last
rune and drop it while it is a space. -/
def trimRightSpace : Nat → List Nat → List Nat
  | 0, bs => bs
  | _ + 1, [] => []
  | fuel + 1, b :: t =>
    let bs := b :: t
    let rn := decodeLastRune bs
    if goIsSpaceRune rn.1 then trimRightSpace fuel (bs.take (bs.length - rn.2)) else bs

/-- Backward ASCII scan of `strings.TrimSpace`: drop trailing ASCII space
bytes; on meeting a non-ASCII byte fall back to the rune-wise right trim.
Each step drops exactly one byte, so fuel `bs.length` suffices. -/
def trimSpaceBack : Nat → List Nat → List Nat
  | 0, bs => bs
  | _ + 1, [] => []
  | fuel + 1, b :: t =>
    let bs := b :: t
    let last := bs.getD (bs.length - 1) 0
    if 0x80 ≤ last then trimRightSpace bs.length bs
    else if asciiSpaceByte last then trimSpaceBack fuel (bs.take (bs.length - 1))
    else bs

/-- Go `strings.TrimSpace` on a byte string: forward ASCII scan, falling
back to the rune-wise trims at the first non-ASCII byte, then the backward
scan. -/
def trimSpace : List Nat → List Nat
  | [] => []
  | b :: t =>
    if 0x80 ≤ b then trimRightSpace (b :: t).length (trimLeftSpace (b :: t).length (b :: t))
    else if asciiSpaceByte b then trimSpace t
    else trimSpaceBack (b :: t).length (b :: t)

/-- Go slice expression `bs[a:b]`: `none` models the out-of-range panic. -/
def goSlice (bs : List Nat) (a b : Int) : Option (List Nat) :=
  if 0 ≤ a ∧ a ≤ b ∧ b ≤ (bs.length : Int) then
    some ((bs.drop a.toNat).take (b - a).toNat)
  else none

/-- Loop of `fieldsFromExtents` (`extents.go`).  The Go loop ranges over
the runes of the line discarding them (`for _, _ = range line`), so only
the rune count `n` drives it; `column` counts runes while the slices taken
from `bs` are byte slices.  State: the fields written so far, the extent
cursor `ei`, `column`, and `wordStart`.  Returns `none` on a panic
(indexing `extents[ei]` out of range, or a slice bound out of range), and
otherwise the state at loop exit (by exhaustion or by `break`). -/
def fieldsLoop (bs : List Nat) (extents : List extent) :
    Nat → List (List Nat) → Nat → Int → Int →
    Option (List (List Nat) × Nat × Int × Int)
  | 0, fields, ei, column, wordStart => some (fields, ei, column, wordStart)
  | n + 1, fields, ei, column, wordStart =>
    let column := column + 1
    match extents.get? ei with
    | none => none
    | some e =>
      if column < e.l then fieldsLoop bs extents n fields ei column wordStart
      else if column = e.l then fieldsLoop bs extents n fields ei column column
      else if column > e.r then
        match goSlice bs (wordStart - 1) column with
        | none => none
        | some sub =>
          let fields := fields.set ei (trimSpace sub)
          if ei + 1 = extents.length then some (fields, ei + 1, column, wordStart)
          else fieldsLoop bs extents n fields (ei + 1) column wordStart
      else fieldsLoop bs extents n fields ei column wordStart

/-- `fieldsFromExtents` from `extents.go`, at byte level.  Fields start as
empty strings; after the loop, if the cursor has not passed the last
extent, the pending field is closed from the recorded word start to the
current column.  `none` models the two reachable panics. -/
def fieldsFromExtents (line : List Char) (extents : List extent) :
    Option (List (List Nat)) :=
  let bs := lineBytes line
  match fieldsLoop bs extents line.length (List.replicate extents.length []) 0 0 0 with
  | none => none
  | some (fields, ei, column, wordStart) =>
    if ei < extents.length then
      match goSlice bs (wordStart - 1) column with
      | none => none
      | some sub => some (fields.set ei (trimSpace sub))
    else some fields

/-! ### The circular buffer (`circular.go`)

Slots hold Go `interface{}` values that are either `nil` (modelled `none`)
or a line (modelled `some line`).  The zero-capacity buffer has a `nil`
items slice, modelled by the empty list. -/

/-- `circularBuffer` from `circular.go`. -/
structure circularBuffer where
  items : List (Option (List Char))
  i : Nat
  looped : Bool
deriving DecidableEq, Repr

/-- `newCircularBuffer` from `circular.go`: `none` models the error
returned for a negative item count. -/
def newCircularBuffer (n : Int) : Option circularBuffer :=
  if n < 0 then none
  else if n = 0 then some { items := [], i := 0, looped := false }
  else some { items := List.replicate n.toNat none, i := 0, looped := false }

/-- `QueueDequeue` from `circular.go`: stores the new item at the current
index and returns what was there (the item from capacity-many calls ago, or
`nil` while the buffer is still filling). -/
def QueueDequeue (cb : circularBuffer) (item : List Char) :
    circularBuffer × Option (List Char) :=
  if cb.items = [] then (cb, some item)
  else
    let t := cb.items.getD cb.i none
    let items := cb.items.set cb.i (some item)
    if cb.i + 1 = cb.items.length then
      ({ items := items, i := 0, looped := true }, t)
    else
      ({ items := items, i := cb.i + 1, looped := cb.looped }, t)

/-- `Drain` from `circular.go`. -/
def Drain (cb : circularBuffer) : List (Option (List Char)) :=
  if cb.looped then cb.items.drop cb.i ++ cb.items.take cb.i
  else cb.items.take cb.i

/-- Iterated `QueueDequeue`: the final buffer plus the value returned by
each call, in call order. -/
def pushAll (cb : circularBuffer) : List (List Char) →
    circularBuffer × List (Option (List Char))
  | [] => (cb, [])
  | x :: xs =>
    let st := QueueDequeue cb x
    let rest := pushAll st.1 xs
    (rest.1, st.2 :: rest.2)

/-! ### The streaming driver (function `extents` of `extents.go`)

The driver reads flag values `*optHeaderLines`, `*optFooterLines`,
`*optDelimiter`, `*optLeftJustify`, `*optRightJustify`; they are gathered
in a configuration record.  Output is modelled as the emitted byte stream.
The auto-justification test `strconv.ParseFloat(field, 64) == nil` is kept
abstract as a boolean predicate `pf` on the field bytes: every theorem
below holds for an arbitrary such predicate, hence for Go's; it influences
only whether padding goes before or after a field. -/

/-- The command-line configuration consumed by `extents`. -/
structure Config where
  optHeaderLines : Int
  optFooterLines : Int
  optDelimiter : List Char
  optLeftJustify : Bool
  optRightJustify : Bool

/-- `utf8.RuneCountInString` on a byte string (each invalid byte counts as
one rune), which is what `fmt` measures field widths with.  Each step
consumes at least one byte, so fuel `bs.length` suffices. -/
def runeCountBytes : Nat → List Nat → Nat
  | 0, _ => 0
  | _ + 1, [] => 0
  | fuel + 1, b :: t => 1 + runeCountBytes fuel ((b :: t).drop (decodeRune (b :: t)).2)

/-- Helper `left` of `extents.go`: `fmt.Printf("%-*s%s", width, field, d)`;
the width is a minimum number of runes, padded with spaces on the right. -/
def left (w : Int) (field : List Nat) (delim : List Nat) : List Nat :=
  field ++ List.replicate (w - (runeCountBytes field.length field : Int)).toNat 32 ++ delim

/-- Helper `right` of `extents.go`: `fmt.Printf("%*s%s", ...)`. -/
def right (w : Int) (field : List Nat) (delim : List Nat) : List Nat :=
  List.replicate (w - (runeCountBytes field.length field : Int)).toNat 32 ++ field ++ delim

/-- The per-field print loop of `extents.go`, walking `fields` and the
merged extents in parallel (Go indexes both by `i`; the caller guarantees
equal lengths, a missing extent falls back to a zero default).  The
delimiter switches to a newline for the final field. -/
def formatLoop (pf : List Nat → Bool) (cfg : Config) (delimBytes : List Nat) :
    List extent → List (List Nat) → List Nat
  | _, [] => []
  | merged, f :: fs =>
    let d := if fs = [] then [10] else delimBytes
    let w := width (merged.headD { l := 0, r := 0 })
    let chunk :=
      if cfg.optLeftJustify then left w f d
      else if cfg.optRightJustify then right w f d
      else if pf f then right w f d
      else left w f d
    chunk ++ formatLoop pf cfg delimBytes merged.tail fs

/-- The replay loop of `extents.go`: format every retained line with the
final merged extents.  `Except.error` carries the output emitted before a
panic inside `fieldsFromExtents`. -/
def printLines (pf : List Nat → Bool) (cfg : Config) (merged : List extent) :
    List (List Char) → List Nat → Except (List Nat) (List Nat)
  | [], out => .ok out
  | l :: ls, out =>
    match fieldsFromExtents l merged with
    | none => .error out
    | some fields => printLines pf cfg merged ls (out ++ formatLoop pf cfg (lineBytes cfg.optDelimiter) merged fields)

/-- The drain loop of `extents.go`: `fmt.Println(line.(string))` for each
remaining buffered item; the type assertion panics on a `nil` item
(unreachable from the driver, but modelled). -/
def drainPrint : List (Option (List Char)) → List Nat → Except (List Nat) (List Nat)
  | [], out => .ok out
  | some l :: rest, out => drainPrint rest (out ++ lineBytes l ++ [10])
  | none :: _, out => .error out

/-- The scan loop of `extents.go`.  While `optHeaderLines > 0` incoming
lines are counted and printed straight through; the first line past the
header zeroes the (mutated global) header count and falls through to the
queue.  Body lines pass through the circular buffer; a released line is
retained and its extents merged into the accumulator.  Returns the final
buffer, the retained lines, the merged extents, and the output so far. -/
def extentsLoop : List (List Char) → Int → Int → circularBuffer →
    List (List Char) → List extent → List Nat →
    circularBuffer × List (List Char) × List extent × List Nat
  | [], _, _, cb, lines, merged, out => (cb, lines, merged, out)
  | l :: rest, optHeader, lineNumber, cb, lines, merged, out =>
    if 0 < optHeader then
      if lineNumber + 1 ≤ optHeader then
        extentsLoop rest optHeader (lineNumber + 1) cb lines merged
          (out ++ lineBytes l ++ [10])
      else
        let st := QueueDequeue cb l
        match st.2 with
        | none => extentsLoop rest 0 (lineNumber + 1) st.1 lines merged out
        | some ll => extentsLoop rest 0 (lineNumber + 1) st.1 (lines ++ [ll])
            (mergeExtents merged (extentsFromLine ll)) out
    else
      let st := QueueDequeue cb l
      match st.2 with
      | none => extentsLoop rest optHeader lineNumber st.1 lines merged out
      | some ll => extentsLoop rest optHeader lineNumber st.1 (lines ++ [ll])
          (mergeExtents merged (extentsFromLine ll)) out

/-- Outcome of one `extents` run: configuration error, panic (with the
output already emitted), or normal completion with the output stream. -/
inductive RunResult where
  | confError : RunResult
  | panicked : List Nat → RunResult
  | done : List Nat → RunResult
deriving DecidableEq, Repr

/-- Function `extents` of `extents.go` end to end on a list of input
lines: build the buffer, run the scan loop, replay the retained lines
through the formatter, then drain the buffer. -/
def extentsRun (pf : List Nat → Bool) (cfg : Config) (input : List (List Char)) :
    RunResult :=
  match newCircularBuffer cfg.optFooterLines with
  | none => .confError
  | some cb =>
    let st := extentsLoop input cfg.optHeaderLines 0 cb [] [] []
    match printLines pf cfg st.2.2.1 st.2.1 st.2.2.2 with
    | .error out => .panicked out
    | .ok out =>
      match drainPrint (Drain st.1) out with
      | .error out2 => .panicked out2
      | .ok out2 => .done out2

/-! ### Spec-side notions used to state the claims -/

/-- Split an output byte stream into the lines it shows: maximal runs
terminated by a newline byte (bytes after the last newline do not form a
line; every print of the driver ends with a newline). -/
def linesOfAux : List Nat → List Nat → List (List Nat)
  | [], _ => []
  | c :: rest, acc =>
    if c = 10 then acc :: linesOfAux rest []
    else linesOfAux rest (acc ++ [c])

/-- The lines of an output byte stream. -/
def linesOf (s : List Nat) : List (List Nat) := linesOfAux s []

/-- Column `c` is covered by some extent of the list. -/
def covered (ee : List extent) (c : Int) : Bool :=
  ee.any fun e => e.l ≤ c && c ≤ e.r

/-- One extent fully contains another. -/
def contains (o e : extent) : Prop := o.l ≤ e.l ∧ e.r ≤ o.r

instance (o e : extent) : Decidable (contains o e) :=
  inferInstanceAs (Decidable (o.l ≤ e.l ∧ e.r ≤ o.r))

/-- An extent list is sorted ascending by `left` and pairwise
non-overlapping (adjacent extents are ordered with a gap), every element
well-formed (`1 ≤ l ≤ r`): the invariant the spec states for per-line
extent lists and for the accumulator. -/
def SortedDisjoint (ee : List extent) : Prop :=
  (∀ e ∈ ee, 1 ≤ e.l ∧ e.l ≤ e.r) ∧ ee.Chain' fun a b => a.r < b.l

/-- Executable check for the separation chain, used only to decide
`SortedDisjoint` on concrete lists. -/
def chainSep : List extent → Bool
  | [] => true
  | [_] => true
  | a :: b :: t => decide (a.r < b.l) && chainSep (b :: t)

theorem chainSep_iff : ∀ ee : List extent,
    chainSep ee = true ↔ ee.Chain' fun a b => a.r < b.l := by
  intro ee
  match ee with
  | [] => simp [chainSep]
  | [a] => simp [chainSep]
  | a :: b :: t =>
    rw [List.chain'_cons]
    simp only [chainSep, Bool.and_eq_true, decide_eq_true_eq]
    exact and_congr Iff.rfl (chainSep_iff (b :: t))

instance : DecidablePred SortedDisjoint := fun ee =>
  decidable_of_iff ((∀ e ∈ ee, 1 ≤ e.l ∧ e.l ≤ e.r) ∧ chainSep ee = true)
    (and_congr Iff.rfl (chainSep_iff ee))

/-- The accumulator fold of the driver: merge in each line's extent list,
starting from the empty accumulator. -/
def inferMerged (lines : List (List Char)) : List extent :=
  lines.foldl (fun acc l => mergeExtents acc (extentsFromLine l)) []

/-- The output line produced for one retained body line: its formatted
chunk without the terminating newline byte. -/
def bodyLineOut (pf : List Nat → Bool) (cfg : Config) (merged : List extent)
    (l : List Char) : List Nat :=
  (formatLoop pf cfg (lineBytes cfg.optDelimiter) merged
    ((fieldsFromExtents l merged).getD [])).dropLast

/-- The formatting replay cannot panic: either nothing was inferred and
every retained line is empty, or the first merged extent starts at a column
that every retained line reaches. -/
def FormatSafe (merged : List extent) (lines : List (List Char)) : Prop :=
  match merged with
  | [] => ∀ l ∈ lines, l = []
  | e0 :: _ => ∀ l ∈ lines, e0.l ≤ (l.length : Int)

/-- Abstract slot contents of a capacity-`F` buffer after the pushes `p`:
slot `j` holds the most recent pushed item whose sequence number is
congruent to `j` modulo `F` (`none` while no such push has happened). -/
def slotVal (F : Nat) (p : List (List Char)) (j : Nat) : Option (List Char) :=
  if j < p.length % F then p.get? (p.length - p.length % F + j)
  else if F ≤ p.length then p.get? (p.length - p.length % F + j - F)
  else none

/-- The state of a fresh capacity-`F` buffer after pushing the items `p`
through `QueueDequeue` one by one. -/
def stateOf (F : Nat) (p : List (List Char)) : circularBuffer :=
  { items := (List.range F).map (slotVal F p),
    i := p.length % F,
    looped := decide (F ≤ p.length) }

/-! ## Helper lemmas -/

theorem attemptMerge_contains {x y m : extent} (h : attemptMerge x y = some m) :
    contains m x ∧ contains m y := by
  unfold attemptMerge at h
  split at h
  · exact absurd h (by simp)
  · split at h
    · exact absurd h (by simp)
    · simp only [Option.some.injEq] at h
      subst h
      constructor <;> constructor <;> simp only [contains] <;> split <;> omega

theorem mergeExtentsAux_contains :
    ∀ (fuel : Nat) (a b : List extent), a.length + b.length ≤ fuel →
    ∀ e, e ∈ a ∨ e ∈ b → ∃ o ∈ mergeExtentsAux fuel a b, contains o e := by
  intro fuel
  induction fuel with
  | zero =>
    intro a b hlen e he
    match a, b with
    | [], b =>
      simp only [mergeExtentsAux]
      rcases he with h | h
      · exact absurd h (by simp)
      · exact ⟨e, h, le_refl _, le_refl _⟩
    | x :: a, [] =>
      simp only [mergeExtentsAux]
      rcases he with h | h
      · exact ⟨e, h, le_refl _, le_refl _⟩
      · exact absurd h (by simp)
    | x :: a, y :: b => simp at hlen
  | succ fuel ih =>
    intro a b hlen e he
    match a, b with
    | [], b =>
      simp only [mergeExtentsAux]
      rcases he with h | h
      · exact absurd h (by simp)
      · exact ⟨e, h, le_refl _, le_refl _⟩
    | x :: a, [] =>
      simp only [mergeExtentsAux]
      rcases he with h | h
      · exact ⟨e, h, le_refl _, le_refl _⟩
      · exact absurd h (by simp)
    | x :: t1, y :: t2 =>
      simp only [mergeExtentsAux]
      cases hm : attemptMerge x y with
      | some m =>
        simp only
        rcases he with h | h
        · rcases List.mem_cons.mp h with rfl | h
          · exact ⟨m, List.mem_cons_self _ _, (attemptMerge_contains hm).1⟩
          · obtain ⟨o, ho, hc⟩ := ih t1 t2 (by simp at hlen ⊢; omega) e (Or.inl h)
            exact ⟨o, List.mem_cons_of_mem _ ho, hc⟩
        · rcases List.mem_cons.mp h with rfl | h
          · exact ⟨m, List.mem_cons_self _ _, (attemptMerge_contains hm).2⟩
          · obtain ⟨o, ho, hc⟩ := ih t1 t2 (by simp at hlen ⊢; omega) e (Or.inr h)
            exact ⟨o, List.mem_cons_of_mem _ ho, hc⟩
      | none =>
        simp only
        split
        · rcases he with h | h
          · rcases List.mem_cons.mp h with rfl | h
            · exact ⟨e, List.mem_cons_self _ _, le_refl _, le_refl _⟩
            · obtain ⟨o, ho, hc⟩ := ih t1 (y :: t2) (by simp at hlen ⊢; omega) e (Or.inl h)
              exact ⟨o, List.mem_cons_of_mem _ ho, hc⟩
          · obtain ⟨o, ho, hc⟩ := ih t1 (y :: t2) (by simp at hlen ⊢; omega) e (Or.inr h)
            exact ⟨o, List.mem_cons_of_mem _ ho, hc⟩
        · rcases he with h | h
          · obtain ⟨o, ho, hc⟩ := ih (x :: t1) t2 (by simp at hlen ⊢; omega) e (Or.inl h)
            exact ⟨o, List.mem_cons_of_mem _ ho, hc⟩
          · rcases List.mem_cons.mp h with rfl | h
            · exact ⟨e, List.mem_cons_self _ _, le_refl _, le_refl _⟩
            · obtain ⟨o, ho, hc⟩ := ih (x :: t1) t2 (by simp at hlen ⊢; omega) e (Or.inr h)
              exact ⟨o, List.mem_cons_of_mem _ ho, hc⟩

theorem mergeExtents_contains {a b : List extent} :
    ∀ e, e ∈ a ∨ e ∈ b → ∃ o ∈ mergeExtents a b, contains o e :=
  mergeExtentsAux_contains (a.length + b.length) a b (le_refl _)

theorem mergeExtentsAux_mem :
    ∀ (fuel : Nat) (a b : List extent), a.length + b.length ≤ fuel →
    ∀ e ∈ mergeExtentsAux fuel a b,
      e ∈ a ∨ e ∈ b ∨ ∃ x ∈ a, ∃ y ∈ b, attemptMerge x y = some e := by
  intro fuel
  induction fuel with
  | zero =>
    intro a b hlen e he
    match a, b with
    | [], b => exact Or.inr (Or.inl he)
    | x :: a, [] => exact Or.inl he
    | x :: a, y :: b => simp at hlen
  | succ fuel ih =>
    intro a b hlen e he
    match a, b with
    | [], b => exact Or.inr (Or.inl he)
    | x :: a, [] => exact Or.inl he
    | x :: t1, y :: t2 =>
      cases hm : attemptMerge x y with
      | some m =>
        simp only [mergeExtentsAux, hm] at he
        rcases List.mem_cons.mp he with rfl | he
        · exact Or.inr (Or.inr ⟨x, List.mem_cons_self _ _, y, List.mem_cons_self _ _, hm⟩)
        · rcases ih t1 t2 (by simp at hlen ⊢; omega) e he with h | h | ⟨u, hu, v, hv, huv⟩
          · exact Or.inl (List.mem_cons_of_mem _ h)
          · exact Or.inr (Or.inl (List.mem_cons_of_mem _ h))
          · exact Or.inr (Or.inr ⟨u, List.mem_cons_of_mem _ hu, v, List.mem_cons_of_mem _ hv, huv⟩)
      | none =>
        simp only [mergeExtentsAux, hm] at he
        split at he
        · rcases List.mem_cons.mp he with rfl | he
          · exact Or.inl (List.mem_cons_self _ _)
          · rcases ih t1 (y :: t2) (by simp at hlen ⊢; omega) e he with h | h | ⟨u, hu, v, hv, huv⟩
            · exact Or.inl (List.mem_cons_of_mem _ h)
            · exact Or.inr (Or.inl h)
            · exact Or.inr (Or.inr ⟨u, List.mem_cons_of_mem _ hu, v, hv, huv⟩)
        · rcases List.mem_cons.mp he with rfl | he
          · exact Or.inr (Or.inl (List.mem_cons_self _ _))
          · rcases ih (x :: t1) t2 (by simp at hlen ⊢; omega) e he with h | h | ⟨u, hu, v, hv, huv⟩
            · exact Or.inl h
            · exact Or.inr (Or.inl (List.mem_cons_of_mem _ h))
            · exact Or.inr (Or.inr ⟨u, hu, v, List.mem_cons_of_mem _ hv, huv⟩)

theorem mergeExtents_mem {a b : List extent} :
    ∀ e ∈ mergeExtents a b,
      e ∈ a ∨ e ∈ b ∨ ∃ x ∈ a, ∃ y ∈ b, attemptMerge x y = some e :=
  mergeExtentsAux_mem (a.length + b.length) a b (le_refl _)

theorem attemptMerge_wf {x y m : extent} (hx : 1 ≤ x.l ∧ x.l ≤ x.r)
    (hy : 1 ≤ y.l ∧ y.l ≤ y.r) (h : attemptMerge x y = some m) :
    1 ≤ m.l ∧ m.l ≤ m.r := by
  unfold attemptMerge at h
  split at h
  · exact absurd h (by simp)
  · split at h
    · exact absurd h (by simp)
    · simp only [Option.some.injEq] at h
      subst h
      dsimp only
      constructor
      · split <;> omega
      · split <;> split <;> omega

theorem mergeExtents_wf {a b : List extent}
    (ha : ∀ e ∈ a, 1 ≤ e.l ∧ e.l ≤ e.r) (hb : ∀ e ∈ b, 1 ≤ e.l ∧ e.l ≤ e.r) :
    ∀ e ∈ mergeExtents a b, 1 ≤ e.l ∧ e.l ≤ e.r := by
  intro e he
  rcases mergeExtents_mem e he with h | h | ⟨x, hx, y, hy, hm⟩
  · exact ha e h
  · exact hb e h
  · exact attemptMerge_wf (ha x hx) (hb y hy) hm

theorem extentsFromLineAux_inv :
    ∀ (cs : List Char) (inWord : Bool) (column wordLeft : Int) (ee : List extent),
    0 ≤ column →
    (∀ e ∈ ee, 1 ≤ e.l ∧ e.l ≤ e.r) →
    ee.Chain' (fun a b => a.r < b.l) →
    (inWord = true → 1 ≤ wordLeft ∧ wordLeft ≤ column ∧ ∀ e ∈ ee, e.r < wordLeft) →
    (inWord = false → ∀ e ∈ ee, e.r ≤ column) →
    (∀ e ∈ extentsFromLineAux cs inWord column wordLeft ee, 1 ≤ e.l ∧ e.l ≤ e.r) ∧
    (extentsFromLineAux cs inWord column wordLeft ee).Chain' fun a b => a.r < b.l := by
  intro cs
  induction cs with
  | nil =>
    intro inWord column wordLeft ee hcol hwf hch hw hnw
    cases inWord with
    | false => simpa [extentsFromLineAux] using ⟨hwf, hch⟩
    | true =>
      obtain ⟨h1, h2, h3⟩ := hw rfl
      simp only [extentsFromLineAux, if_pos]
      constructor
      · intro e he
        rcases List.mem_append.mp he with h | h
        · exact hwf e h
        · simp only [List.mem_singleton] at h
          subst h
          exact ⟨h1, h2⟩
      · rw [List.chain'_append]
        refine ⟨hch, List.chain'_singleton _, ?_⟩
        intro a ha b hb
        simp only [List.head?_cons, Option.mem_def, Option.some.injEq] at hb
        subst hb
        exact h3 a (List.mem_of_mem_getLast? ha)
  | cons c rest ih =>
    intro inWord column wordLeft ee hcol hwf hch hw hnw
    simp only [extentsFromLineAux]
    by_cases hsp : goIsSpace c != inWord
    · rw [if_pos hsp]
      refine ih inWord (column + 1) wordLeft ee (by omega) hwf hch ?_ ?_
      · intro h
        obtain ⟨h1, h2, h3⟩ := hw h
        exact ⟨h1, by omega, h3⟩
      · intro h
        intro e he
        have := hnw h e he
        omega
    · rw [if_neg hsp]
      cases inWord with
      | false =>
        simp only [Bool.not_false, if_pos]
        refine ih true (column + 1) (column + 1) ee (by omega) hwf hch ?_ ?_
        · intro _
          refine ⟨by omega, by omega, ?_⟩
          intro e he
          have := hnw rfl e he
          omega
        · intro h
          exact absurd h (by simp)
      | true =>
        simp only [Bool.not_true, if_neg (by simp : ¬((false : Bool) = true))]
        obtain ⟨h1, h2, h3⟩ := hw rfl
        refine ih false (column + 1) wordLeft (ee ++ [{ l := wordLeft, r := column + 1 - 1 }])
          (by omega) ?_ ?_ ?_ ?_
        · intro e he
          rcases List.mem_append.mp he with h | h
          · exact hwf e h
          · simp only [List.mem_singleton] at h
            subst h
            exact ⟨h1, by simp only; omega⟩
        · rw [List.chain'_append]
          refine ⟨hch, List.chain'_singleton _, ?_⟩
          intro a ha b hb
          simp only [List.head?_cons, Option.mem_def, Option.some.injEq] at hb
          subst hb
          exact h3 a (List.mem_of_mem_getLast? ha)
        · intro h
          exact absurd h (by simp)
        · intro _
          intro e he
          rcases List.mem_append.mp he with h | h
          · have := h3 e h
            omega
          · simp only [List.mem_singleton] at h
            subst h
            simp only
            omega

theorem extentsFromLine_sortedDisjoint (line : List Char) :
    SortedDisjoint (extentsFromLine line) := by
  have := extentsFromLineAux_inv line false 0 0 [] (le_refl 0)
    (by intro e he; exact absurd he (by simp))
    (by simp)
    (by intro h; exact absurd h (by simp))
    (by intro _ e he; exact absurd he (by simp))
  exact ⟨this.1, this.2⟩

theorem extentsFromLine_wf (line : List Char) :
    ∀ e ∈ extentsFromLine line, 1 ≤ e.l ∧ e.l ≤ e.r :=
  (extentsFromLine_sortedDisjoint line).1

theorem chain_sep_forall :
    ∀ (x : extent) (t : List extent), (x :: t).Chain' (fun a b => a.r < b.l) →
    (∀ e ∈ t, e.l ≤ e.r) → ∀ e ∈ t, x.r < e.l := by
  intro x t
  induction t generalizing x with
  | nil => intro _ _ e he; exact absurd he (by simp)
  | cons y t ih =>
    intro hch hwf e he
    have hxy : x.r < y.l := (List.chain'_cons.mp hch).1
    rcases List.mem_cons.mp he with rfl | he
    · exact hxy
    · have := ih y (List.chain'_cons.mp hch).2 (fun e he => hwf e (List.mem_cons_of_mem _ he)) e he
      have hy := hwf y (List.mem_cons_self _ _)
      omega

theorem chain_sep_to_le :
    ∀ (l : List extent), (∀ e ∈ l, e.l ≤ e.r) →
    l.Chain' (fun a b => a.r < b.l) → l.Chain' (fun a b => a.l ≤ b.l) := by
  intro l
  induction l with
  | nil => intro _ _; exact List.chain'_nil
  | cons x t ih =>
    intro hwf hch
    cases t with
    | nil => exact List.chain'_singleton _
    | cons y s =>
      rw [List.chain'_cons] at hch ⊢
      have hx := hwf x (List.mem_cons_self _ _)
      refine ⟨by omega, ?_⟩
      exact ih (fun e he => hwf e (List.mem_cons_of_mem _ he)) hch.2

theorem attemptMerge_l_or {x y m : extent} (h : attemptMerge x y = some m) :
    (m.l = x.l ∨ m.l = y.l) ∧ (m.r = x.r ∨ m.r = y.r) := by
  unfold attemptMerge at h
  split at h
  · exact absurd h (by simp)
  · split at h
    · exact absurd h (by simp)
    · simp only [Option.some.injEq] at h
      subst h
      dsimp only
      constructor
      · split
        · exact Or.inr rfl
        · exact Or.inl rfl
      · split
        · exact Or.inr rfl
        · exact Or.inl rfl

theorem mergeExtentsAux_l_lb {fuel : Nat} {a b : List extent} {c : Int}
    (hlen : a.length + b.length ≤ fuel)
    (ha : ∀ e ∈ a, c ≤ e.l) (hb : ∀ e ∈ b, c ≤ e.l) :
    ∀ e ∈ mergeExtentsAux fuel a b, c ≤ e.l := by
  intro e he
  rcases mergeExtentsAux_mem fuel a b hlen e he with h | h | ⟨x, hx, y, hy, hm⟩
  · exact ha e h
  · exact hb e h
  · rcases (attemptMerge_l_or hm).1 with h | h
    · rw [h]; exact ha x hx
    · rw [h]; exact hb y hy

theorem head_mem_of_head? {z : extent} {l : List extent}
    (hz : z ∈ l.head?) : z ∈ l := by
  cases l with
  | nil => exact absurd hz (by simp)
  | cons u s =>
    simp only [List.head?_cons, Option.mem_def, Option.some.injEq] at hz
    rw [hz]
    exact List.mem_cons_self _ _

theorem mergeExtentsAux_chain_le :
    ∀ (fuel : Nat) (a b : List extent), a.length + b.length ≤ fuel →
    (∀ e ∈ a, 1 ≤ e.l ∧ e.l ≤ e.r) → a.Chain' (fun u v => u.r < v.l) →
    (∀ e ∈ b, 1 ≤ e.l ∧ e.l ≤ e.r) → b.Chain' (fun u v => u.r < v.l) →
    (mergeExtentsAux fuel a b).Chain' fun u v => u.l ≤ v.l := by
  intro fuel
  induction fuel with
  | zero =>
    intro a b hlen hwa hca hwb hcb
    match a, b with
    | [], b => exact chain_sep_to_le b (fun e he => (hwb e he).2) hcb
    | x :: a, [] => exact chain_sep_to_le _ (fun e he => (hwa e he).2) hca
    | x :: a, y :: b => simp at hlen
  | succ fuel ih =>
    intro a b hlen hwa hca hwb hcb
    match a, b with
    | [], b => exact chain_sep_to_le b (fun e he => (hwb e he).2) hcb
    | x :: a, [] => exact chain_sep_to_le _ (fun e he => (hwa e he).2) hca
    | x :: t1, y :: t2 =>
      have hx := hwa x (List.mem_cons_self _ _)
      have hy := hwb y (List.mem_cons_self _ _)
      have hsep1 := chain_sep_forall x t1 hca
        (fun e he => (hwa e (List.mem_cons_of_mem _ he)).2)
      have hsep2 := chain_sep_forall y t2 hcb
        (fun e he => (hwb e (List.mem_cons_of_mem _ he)).2)
      have hwa1 : ∀ e ∈ t1, 1 ≤ e.l ∧ e.l ≤ e.r :=
        fun e he => hwa e (List.mem_cons_of_mem _ he)
      have hwb1 : ∀ e ∈ t2, 1 ≤ e.l ∧ e.l ≤ e.r :=
        fun e he => hwb e (List.mem_cons_of_mem _ he)
      have hca1 := (List.chain'_cons'.mp hca).2
      have hcb1 := (List.chain'_cons'.mp hcb).2
      have hfuel : t1.length + t2.length ≤ fuel := by simp at hlen ⊢; omega
      have hfuel1 : t1.length + (y :: t2).length ≤ fuel := by simp at hlen ⊢; omega
      have hfuel2 : (x :: t1).length + t2.length ≤ fuel := by simp at hlen ⊢; omega
      simp only [mergeExtentsAux]
      cases hm : attemptMerge x y with
      | some m =>
        obtain ⟨hm1l, hm1r⟩ := (attemptMerge_contains hm).1
        obtain ⟨hm2l, hm2r⟩ := (attemptMerge_contains hm).2
        simp only
        rw [List.chain'_cons']
        refine ⟨?_, ih t1 t2 hfuel hwa1 hca1 hwb1 hcb1⟩
        intro z hz
        refine mergeExtentsAux_l_lb hfuel ?_ ?_ z (head_mem_of_head? hz)
        · intro e he
          have := hsep1 e he
          omega
        · intro e he
          have := hsep2 e he
          omega
      | none =>
        simp only
        split
        · rw [List.chain'_cons']
          refine ⟨?_, ih t1 (y :: t2) hfuel1 hwa1 hca1 hwb hcb⟩
          intro z hz
          refine mergeExtentsAux_l_lb hfuel1 ?_ ?_ z (head_mem_of_head? hz)
          · intro e he
            have := hsep1 e he
            omega
          · intro e he
            rcases List.mem_cons.mp he with rfl | he
            · omega
            · have := hsep2 e he
              omega
        · rw [List.chain'_cons']
          refine ⟨?_, ih (x :: t1) t2 hfuel2 hwa hca hwb1 hcb1⟩
          intro z hz
          refine mergeExtentsAux_l_lb hfuel2 ?_ ?_ z (head_mem_of_head? hz)
          · intro e he
            rcases List.mem_cons.mp he with rfl | he
            · omega
            · have := hsep1 e he
              omega
          · intro e he
            have := hsep2 e he
            omega

theorem mergeExtents_chain_le {a b : List extent}
    (ha : SortedDisjoint a) (hb : SortedDisjoint b) :
    (mergeExtents a b).Chain' fun u v => u.l ≤ v.l :=
  mergeExtentsAux_chain_le (a.length + b.length) a b (le_refl _) ha.1 ha.2 hb.1 hb.2

theorem covered_nil (c : Int) : covered [] c = false := rfl

theorem covered_cons (e : extent) (ee : List extent) (c : Int) :
    covered (e :: ee) c = true ↔ (e.l ≤ c ∧ c ≤ e.r) ∨ covered ee c = true := by
  simp [covered, List.any_cons]

theorem attemptMerge_covered {x y m : extent} (hm : attemptMerge x y = some m)
    (c : Int) : (m.l ≤ c ∧ c ≤ m.r) ↔ (x.l ≤ c ∧ c ≤ x.r) ∨ (y.l ≤ c ∧ c ≤ y.r) := by
  unfold attemptMerge at hm
  split at hm
  · exact absurd hm (by simp)
  · split at hm
    · exact absurd hm (by simp)
    · simp only [Option.some.injEq] at hm
      subst hm
      dsimp only
      split <;> split <;> omega

theorem mergeExtentsAux_covered :
    ∀ (fuel : Nat) (a b : List extent), a.length + b.length ≤ fuel → ∀ c : Int,
    (covered (mergeExtentsAux fuel a b) c = true ↔
      (covered a c = true ∨ covered b c = true)) := by
  intro fuel
  induction fuel with
  | zero =>
    intro a b hlen c
    match a, b with
    | [], b => simp [mergeExtentsAux, covered_nil]
    | x :: a, [] => simp [mergeExtentsAux, covered_nil]
    | x :: a, y :: b => simp at hlen
  | succ fuel ih =>
    intro a b hlen c
    match a, b with
    | [], b => simp [mergeExtentsAux, covered_nil]
    | x :: a, [] => simp [mergeExtentsAux, covered_nil]
    | x :: t1, y :: t2 =>
      simp only [mergeExtentsAux]
      cases hm : attemptMerge x y with
      | some m =>
        simp only
        simp only [covered_cons, attemptMerge_covered hm,
          ih t1 t2 (by simp at hlen ⊢; omega)]
        tauto
      | none =>
        simp only
        split
        · simp only [covered_cons, ih t1 (y :: t2) (by simp at hlen ⊢; omega)]
          tauto
        · simp only [covered_cons, ih (x :: t1) t2 (by simp at hlen ⊢; omega)]
          tauto

theorem mergeExtents_covered (a b : List extent) (c : Int) :
    covered (mergeExtents a b) c = (covered a c || covered b c) := by
  have h := mergeExtentsAux_covered (a.length + b.length) a b (le_refl _) c
  rw [show mergeExtentsAux (a.length + b.length) a b = mergeExtents a b from rfl] at h
  rw [Bool.eq_iff_iff]
  simp only [Bool.or_eq_true]
  exact h

/-! ## Claim theorems -/

/-- C1 (counterexample): for the sorted, pairwise non-overlapping inputs
`a = [(1,10)]` and `b = [(2,3),(5,6)]`, the input extent `(5,6)` of `b` is
fully contained in two distinct extents of `mergeExtents a b`, not exactly
one: the output is `[(1,10),(5,6)]` and both elements contain `(5,6)`. -/
theorem C1_counterexample :
    SortedDisjoint [({ l := 1, r := 10 } : extent)] ∧
    SortedDisjoint [({ l := 2, r := 3 } : extent), { l := 5, r := 6 }] ∧
    ({ l := 5, r := 6 } : extent) ∈ [({ l := 2, r := 3 } : extent), { l := 5, r := 6 }] ∧
    ((mergeExtents [{ l := 1, r := 10 }] [{ l := 2, r := 3 }, { l := 5, r := 6 }]).countP
      fun o => decide (contains o { l := 5, r := 6 })) = 2 := by decide

/-- C1 (amended): for sorted, pairwise non-overlapping extent lists `a`
and `b`, every extent of `a` and of `b` is fully contained in AT LEAST one
extent of `mergeExtents a b` (exactly one fails: when an extent of one list
spans several extents of the other, the spanned ones are emitted again and
are contained in the spanning output extent as well). -/
theorem C1_merge_containment (a b : List extent)
    (ha : SortedDisjoint a) (hb : SortedDisjoint b) :
    ∀ e, e ∈ a ∨ e ∈ b → ∃ o ∈ mergeExtents a b, contains o e := by
  intro e he
  exact mergeExtents_contains e he

/-- C1 witness: the amended containment at a concrete input. -/
theorem C1_merge_containment_witness :
    SortedDisjoint [({ l := 1, r := 3 } : extent)] ∧
    SortedDisjoint [({ l := 5, r := 6 } : extent)] ∧
    ∃ o ∈ mergeExtents [{ l := 1, r := 3 }] [{ l := 5, r := 6 }],
      contains o { l := 1, r := 3 } :=
  ⟨by decide, by decide,
    C1_merge_containment [{ l := 1, r := 3 }] [{ l := 5, r := 6 }]
      (by decide) (by decide) { l := 1, r := 3 } (Or.inl (by decide))⟩

/-- C2 (counterexample): extent lists produced by `mergeExtents` from
sorted, pairwise non-overlapping inputs need not be pairwise
non-overlapping: `mergeExtents [(1,10)] [(2,3),(5,6)] = [(1,10),(5,6)]`,
whose second element overlaps the first. -/
theorem C2_counterexample :
    SortedDisjoint [({ l := 1, r := 10 } : extent)] ∧
    SortedDisjoint [({ l := 2, r := 3 } : extent), { l := 5, r := 6 }] ∧
    mergeExtents [{ l := 1, r := 10 }] [{ l := 2, r := 3 }, { l := 5, r := 6 }] =
      [{ l := 1, r := 10 }, { l := 5, r := 6 }] ∧
    ¬ SortedDisjoint
      (mergeExtents [{ l := 1, r := 10 }] [{ l := 2, r := 3 }, { l := 5, r := 6 }]) := by
  decide

/-- C2 (amended): every list produced by `extentsFromLine` is sorted
ascending by left, pairwise non-overlapping, with `1 ≤ l ≤ r` throughout;
every list returned by `mergeExtents` on sorted non-overlapping inputs
still satisfies `1 ≤ l ≤ r` throughout and is sorted ascending by left,
but it is NOT always pairwise non-overlapping. -/
theorem C2_invariants :
    (∀ line : List Char, SortedDisjoint (extentsFromLine line)) ∧
    ∀ a b : List extent, SortedDisjoint a → SortedDisjoint b →
      (∀ e ∈ mergeExtents a b, 1 ≤ e.l ∧ e.l ≤ e.r) ∧
      (mergeExtents a b).Chain' fun u v => u.l ≤ v.l :=
  ⟨extentsFromLine_sortedDisjoint, fun a b ha hb =>
    ⟨mergeExtents_wf ha.1 hb.1, mergeExtents_chain_le ha hb⟩⟩

/-- C2 witness: the amended invariants at concrete inputs. -/
theorem C2_invariants_witness :
    SortedDisjoint (extentsFromLine ['a', ' ', 'b']) ∧
    SortedDisjoint [({ l := 1, r := 3 } : extent)] ∧
    SortedDisjoint [({ l := 5, r := 6 } : extent)] ∧
    ((∀ e ∈ mergeExtents [{ l := 1, r := 3 }] [{ l := 5, r := 6 }],
        1 ≤ e.l ∧ e.l ≤ e.r) ∧
      (mergeExtents [{ l := 1, r := 3 }] [{ l := 5, r := 6 }]).Chain'
        fun u v => u.l ≤ v.l) :=
  ⟨C2_invariants.1 ['a', ' ', 'b'], by decide, by decide,
    C2_invariants.2 [{ l := 1, r := 3 }] [{ l := 5, r := 6 }] (by decide) (by decide)⟩

/-- C3 (counterexample): associativity of `mergeExtents` fails on the
extent lists of the lines `"x"`, `" x"` and `"xx"` (each sorted and
non-overlapping, each line a distinct word): one association gives
`[(1,2),(2,2)]`, the other `[(1,2)]`. -/
theorem C3_counterexample :
    extentsFromLine ['x'] = [{ l := 1, r := 1 }] ∧
    extentsFromLine [' ', 'x'] = [{ l := 2, r := 2 }] ∧
    extentsFromLine ['x', 'x'] = [{ l := 1, r := 2 }] ∧
    mergeExtents (mergeExtents [{ l := 1, r := 1 }] [{ l := 2, r := 2 }])
        [{ l := 1, r := 2 }] = [{ l := 1, r := 2 }, { l := 2, r := 2 }] ∧
    mergeExtents [{ l := 1, r := 1 }]
        (mergeExtents [{ l := 2, r := 2 }] [{ l := 1, r := 2 }]) = [{ l := 1, r := 2 }] ∧
    mergeExtents (mergeExtents [{ l := 1, r := 1 }] [{ l := 2, r := 2 }])
        [{ l := 1, r := 2 }] ≠
      mergeExtents [{ l := 1, r := 1 }]
        (mergeExtents [{ l := 2, r := 2 }] [{ l := 1, r := 2 }]) := by decide

/-- C3 (amended): the two associations of `mergeExtents` need not be equal
as lists, but they cover exactly the same set of columns: column coverage
of a merge is the union of the coverages of its inputs, hence folding lines
in any association covers the same columns. -/
theorem C3_coverage_assoc (a b c : List extent) (x : Int) :
    covered (mergeExtents (mergeExtents a b) c) x =
      covered (mergeExtents a (mergeExtents b c)) x := by
  rw [mergeExtents_covered, mergeExtents_covered, mergeExtents_covered,
    mergeExtents_covered, Bool.or_assoc]

/-- C5 (code bug): `fieldsFromExtents` documents that extents hold column
numbers rather than byte indexes, yet slices the line with them as byte
indexes.  On the line `"á b"` (extents `[(1,1),(3,3)]` by rune count) the
second field comes out `""` instead of `"b"`: the two-byte rune `á` shifts
every byte slice one byte left of the intended rune positions. -/
theorem C5_code_bug :
    extentsFromLine ['á', ' ', 'b'] = [{ l := 1, r := 1 }, { l := 3, r := 3 }] ∧
    fieldsFromExtents ['á', ' ', 'b'] (extentsFromLine ['á', ' ', 'b']) =
      some [[0xC3, 0xA1], []] ∧
    [[0xC3, 0xA1], ([] : List Nat)] ≠ [lineBytes ['á'], lineBytes ['b']] := by decide

/-- C6 (code bug): on a merged extent list with a leading missing cell the
extractor emits the first rune of the next word as the missing field
instead of an empty string.  Lines `"abc"` and `"   def"` merge to
`[(1,3),(4,6)]` (sorted, non-overlapping, containing the second line's own
extent `(4,6)`); extracting `"   def"` yields `["d", "def"]`, not
`["", "def"]`: the close of the skipped extent happens at column 4, which
already belongs to the next word, and the word start of extent `(4,6)` is
never recorded because column 4 is consumed by that close. -/
theorem C6_code_bug :
    extentsFromLine [' ', ' ', ' ', 'd', 'e', 'f'] = [{ l := 4, r := 6 }] ∧
    mergeExtents (extentsFromLine ['a', 'b', 'c'])
        (extentsFromLine [' ', ' ', ' ', 'd', 'e', 'f']) =
      [{ l := 1, r := 3 }, { l := 4, r := 6 }] ∧
    SortedDisjoint [({ l := 1, r := 3 } : extent), { l := 4, r := 6 }] ∧
    fieldsFromExtents [' ', ' ', ' ', 'd', 'e', 'f']
        [{ l := 1, r := 3 }, { l := 4, r := 6 }] =
      some [[100], [100, 101, 102]] ∧
    [[100], [100, 101, 102]] ≠ [([] : List Nat), [100, 101, 102]] := by decide

/-- C9 (confirmed): a negative capacity makes `newCircularBuffer` return an
error, and then the whole run fails with a configuration error before any
input is consumed or output produced, for every input; any non-negative
capacity constructs successfully. -/
theorem C9_negative_capacity (n : Int) :
    (n < 0 → newCircularBuffer n = none) ∧
    (0 ≤ n → ∃ cb, newCircularBuffer n = some cb) ∧
    ∀ (pf : List Nat → Bool) (cfg : Config) (input : List (List Char)),
      cfg.optFooterLines = n → n < 0 → extentsRun pf cfg input = .confError := by
  refine ⟨?_, ?_, ?_⟩
  · intro h
    unfold newCircularBuffer
    rw [if_pos h]
  · intro h
    by_cases h0 : n = 0
    · exact ⟨_, by unfold newCircularBuffer; rw [if_neg (by omega), if_pos h0]⟩
    · exact ⟨_, by unfold newCircularBuffer; rw [if_neg (by omega), if_neg h0]⟩
  · intro pf cfg input hf hn
    unfold extentsRun
    rw [hf, show newCircularBuffer n = none from by unfold newCircularBuffer; rw [if_pos hn]]

/-- C9 witness: the three parts at concrete capacities. -/
theorem C9_negative_capacity_witness :
    newCircularBuffer (-1) = none ∧
    (∃ cb, newCircularBuffer 2 = some cb) ∧
    extentsRun (fun _ => false) ⟨0, -1, [' '], false, false⟩ [['a']] = .confError :=
  ⟨(C9_negative_capacity (-1)).1 (by decide),
   (C9_negative_capacity 2).2.1 (by decide),
   (C9_negative_capacity (-1)).2.2 (fun _ => false) ⟨0, -1, [' '], false, false⟩
     [['a']] rfl (by decide)⟩

/-- C10 (confirmed): with a non-empty line and an empty extent list,
`fieldsFromExtents` reads `extents[0]` on the first rune and panics, and
end to end a run whose only inference-eligible line is three spaces
panics with no output instead of printing. -/
theorem C10_empty_extents_panic (line : List Char) (h : line ≠ []) :
    fieldsFromExtents line [] = none ∧
    ∀ pf : List Nat → Bool,
      extentsRun pf ⟨0, 0, [' '], false, false⟩ [[' ', ' ', ' ']] = .panicked [] := by
  constructor
  · cases line with
    | nil => exact absurd rfl h
    | cons c rest => rfl
  · intro pf
    rfl

/-- C10 witness: the panic at a concrete one-rune line. -/
theorem C10_empty_extents_panic_witness :
    (['x'] : List Char) ≠ [] ∧
    fieldsFromExtents ['x'] [] = none ∧
    extentsRun (fun _ => false) ⟨0, 0, [' '], false, false⟩ [[' ', ' ', ' ']] =
      .panicked [] := by
  refine ⟨by decide, ?_, ?_⟩
  · exact (C10_empty_extents_panic ['x'] (by decide)).1
  · exact (C10_empty_extents_panic ['x'] (by decide)).2 (fun _ => false)

/-! ## Circular buffer invariant -/

theorem stateOf_items_length (F : Nat) (p : List (List Char)) :
    (stateOf F p).items.length = F := by
  simp [stateOf]

theorem slotVal_lt {F : Nat} {p : List (List Char)} {j : Nat}
    (h : j < p.length % F) :
    slotVal F p j = p.get? (p.length - p.length % F + j) := by
  unfold slotVal
  rw [if_pos h]

theorem slotVal_mid {F : Nat} {p : List (List Char)} {j : Nat}
    (h1 : ¬ j < p.length % F) (h2 : F ≤ p.length) :
    slotVal F p j = p.get? (p.length - p.length % F + j - F) := by
  unfold slotVal
  rw [if_neg h1, if_pos h2]

theorem slotVal_none {F : Nat} {p : List (List Char)} {j : Nat}
    (h1 : ¬ j < p.length % F) (h2 : ¬ F ≤ p.length) :
    slotVal F p j = none := by
  unfold slotVal
  rw [if_neg h1, if_neg h2]

theorem newCircularBuffer_pos (F : Nat) (hF : 0 < F) :
    newCircularBuffer (F : Int) = some (stateOf F []) := by
  have hitems : (List.range F).map (slotVal F []) = List.replicate F none := by
    refine List.eq_replicate.mpr ⟨by simp, ?_⟩
    intro b hb
    rw [List.mem_map] at hb
    obtain ⟨j, _, rfl⟩ := hb
    rw [slotVal_none (by simp) (by simp; omega)]
  unfold newCircularBuffer
  rw [if_neg (by omega), if_neg (by simp; omega)]
  simp only [stateOf, List.length_nil, Nat.zero_mod]
  rw [show ((F : Int).toNat) = F from by omega, ← hitems,
    show decide (F ≤ 0) = false from by rw [decide_eq_false_iff_not]; omega]

theorem slotVal_snoc (F : Nat) (hF : 0 < F) (p : List (List Char)) (x : List Char)
    (j : Nat) (hj : j < F) :
    slotVal F (p ++ [x]) j =
      if j = p.length % F then some x else slotVal F p j := by
  set n := p.length with hn
  have hr : n % F < F := Nat.mod_lt _ hF
  have hrn : n % F ≤ n := Nat.mod_le _ _
  have hlen : (p ++ [x]).length = n + 1 := by simp [hn]
  have hmodsucc : (n + 1) % F = (n % F + 1) % F := by rw [Nat.mod_add_mod]
  by_cases hcase : n % F + 1 = F
  · have hq : (p ++ [x]).length % F = 0 := by
      rw [hlen, hmodsucc, hcase, Nat.mod_self]
    have hF1 : F ≤ (p ++ [x]).length := by omega
    rw [slotVal_mid (by omega) hF1, hq, hlen]
    by_cases hjr : j = n % F
    · subst hjr
      rw [if_pos rfl, show n + 1 - 0 + n % F - F = n from by omega, hn]
      exact List.get?_concat_length p x
    · have hjlt : j < n % F := by omega
      rw [if_neg hjr, slotVal_lt hjlt,
        show n + 1 - 0 + j - F = n - n % F + j from by omega,
        List.get?_append (by omega : n - n % F + j < p.length)]
  · have hq : (p ++ [x]).length % F = n % F + 1 := by
      rw [hlen, hmodsucc]
      exact Nat.mod_eq_of_lt (by omega)
    by_cases hjr : j = n % F
    · subst hjr
      rw [slotVal_lt (by rw [hq]; omega), hq, hlen, if_pos rfl,
        show n + 1 - (n % F + 1) + n % F = n from by omega, hn]
      exact List.get?_concat_length p x
    · rw [if_neg hjr]
      by_cases hjlt : j < n % F
      · rw [slotVal_lt (by rw [hq]; omega), hq, hlen, slotVal_lt hjlt,
          show n + 1 - (n % F + 1) + j = n - n % F + j from by omega,
          List.get?_append (by omega : n - n % F + j < p.length)]
      · by_cases hF2 : F ≤ n
        · rw [slotVal_mid (by rw [hq]; omega) (by omega), hq, hlen,
            slotVal_mid hjlt hF2,
            show n + 1 - (n % F + 1) + j - F = n - n % F + j - F from by omega,
            List.get?_append (by omega : n - n % F + j - F < p.length)]
        · have hnr : n % F = n := Nat.mod_eq_of_lt (by omega)
          rw [slotVal_none (by rw [hq]; omega) (by omega), slotVal_none hjlt hF2]

theorem set_state_items (F : Nat) (hF : 0 < F) (p : List (List Char)) (x : List Char) :
    ((List.range F).map (slotVal F p)).set (p.length % F) (some x) =
      (List.range F).map (slotVal F (p ++ [x])) := by
  apply List.ext_get?
  intro j
  by_cases hj : j < F
  · rw [List.get?_map, List.get?_range hj]
    by_cases hjr : j = p.length % F
    · subst hjr
      rw [List.get?_set_eq_of_lt (some x) (by simp; exact Nat.mod_lt _ hF)]
      simp only [Option.map_some']
      rw [slotVal_snoc F hF p x _ (Nat.mod_lt _ hF), if_pos rfl]
    · rw [List.get?_set_ne (some x) _ fun h => hjr h.symm]
      rw [List.get?_map, List.get?_range hj]
      simp only [Option.map_some']
      rw [slotVal_snoc F hF p x j hj, if_neg hjr]
  · have h1 : (((List.range F).map (slotVal F p)).set (p.length % F) (some x)).length ≤ j := by
      simp; omega
    have h2 : ((List.range F).map (slotVal F (p ++ [x]))).length ≤ j := by
      simp; omega
    rw [List.get?_eq_none.mpr h1, List.get?_eq_none.mpr h2]

theorem queue_step (F : Nat) (hF : 0 < F) (p : List (List Char)) (x : List Char) :
    QueueDequeue (stateOf F p) x =
      (stateOf F (p ++ [x]),
       if p.length < F then none else p.get? (p.length - F)) := by
  have hne : (stateOf F p).items ≠ [] := by
    intro h
    have h2 := stateOf_items_length F p
    rw [h] at h2
    simp at h2
    omega
  have hr : p.length % F < F := Nat.mod_lt _ hF
  have hrn : p.length % F ≤ p.length := Nat.mod_le _ _
  have hget : ((List.range F).map (slotVal F p)).getD (p.length % F) none =
      slotVal F p (p.length % F) := by
    rw [List.getD_eq_getElem?_getD, List.getElem?_map]
    rw [show (List.range F)[p.length % F]? = some (p.length % F) from by
      rw [List.getElem?_range hr]]
    rfl
  have ht : slotVal F p (p.length % F) =
      if p.length < F then none else p.get? (p.length - F) := by
    by_cases h : F ≤ p.length
    · rw [slotVal_mid (lt_irrefl _) h, if_neg (by omega),
        show p.length - p.length % F + p.length % F - F = p.length - F from by omega]
    · rw [slotVal_none (lt_irrefl _) h, if_pos (by omega)]
  unfold QueueDequeue
  rw [if_neg hne]
  simp only [stateOf, List.length_map, List.length_range, List.length_append,
    List.length_singleton]
  rw [hget, ht, set_state_items F hF p x]
  by_cases hcase : p.length % F + 1 = F
  · rw [if_pos hcase]
    have hq : (p.length + 1) % F = 0 := by
      rw [← Nat.mod_add_mod, hcase, Nat.mod_self]
    have hF1 : F ≤ p.length + 1 := by omega
    rw [hq, show decide (F ≤ p.length + 1) = true from decide_eq_true hF1]
  · rw [if_neg hcase]
    have hq : (p.length + 1) % F = p.length % F + 1 := by
      rw [← Nat.mod_add_mod]
      exact Nat.mod_eq_of_lt (by omega)
    rw [hq, show decide (F ≤ p.length) = decide (F ≤ p.length + 1) from by
      rw [decide_eq_decide]
      by_cases hF2 : F ≤ p.length
      · omega
      · have h5 := Nat.mod_eq_of_lt (Nat.lt_of_not_le hF2)
        omega]

theorem items_get (F : Nat) (p : List (List Char)) (k : Nat) (hk : k < F) :
    ((List.range F).map (slotVal F p)).get? k = some (slotVal F p k) := by
  rw [List.get?_map, List.get?_range hk, Option.map_some']

theorem Drain_stateOf (F : Nat) (hF : 0 < F) (p : List (List Char)) :
    Drain (stateOf F p) = (p.drop (p.length - min F p.length)).map some := by
  have hr : p.length % F < F := Nat.mod_lt _ hF
  have hrn : p.length % F ≤ p.length := Nat.mod_le _ _
  by_cases hFn : F ≤ p.length
  · have hmin : min F p.length = F := by omega
    unfold Drain
    rw [if_pos (by simp [stateOf]; omega), hmin]
    apply List.ext_get?
    intro j
    simp only [stateOf]
    by_cases hj : j < F - p.length % F
    · rw [List.get?_append (by simp [stateOf]; omega)]
      rw [List.get?_drop, items_get F p _ (by omega)]
      rw [slotVal_mid (by omega) hFn]
      rw [List.get?_map, List.get?_drop]
      rw [show p.length - p.length % F + (p.length % F + j) - F =
        p.length - F + j from by omega]
      rw [List.get?_eq_get (by omega : p.length - F + j < p.length),
        Option.map_some']
    · by_cases hj2 : j < F
      · rw [List.get?_append_right (by simp [stateOf]; omega)]
        rw [show j - ((List.map (slotVal F p) (List.range F)).drop
            (p.length % F)).length = j - (F - p.length % F) from by simp]
        rw [List.get?_take (by omega), items_get F p _ (by omega)]
        rw [slotVal_lt (by omega)]
        rw [List.get?_map, List.get?_drop]
        rw [show p.length - p.length % F + (j - (F - p.length % F)) =
          p.length - F + j from by omega]
        rw [List.get?_eq_get (by omega : p.length - F + j < p.length),
          Option.map_some']
      · rw [List.get?_eq_none.mpr (by simp [stateOf]; omega),
          List.get?_eq_none.mpr (by simp; omega)]
  · have hmod : p.length % F = p.length := Nat.mod_eq_of_lt (by omega)
    have hmin : min F p.length = p.length := by omega
    unfold Drain
    rw [if_neg (by simp [stateOf]; omega), hmin]
    apply List.ext_get?
    intro j
    simp only [stateOf, hmod]
    by_cases hj : j < p.length
    · rw [List.get?_take hj, items_get F p _ (by omega)]
      rw [slotVal_lt (by omega)]
      rw [show p.length - p.length % F + j = j from by omega]
      rw [show p.length - p.length = 0 from by omega, List.drop_zero]
      rw [List.get?_map, List.get?_eq_get hj, Option.map_some']
    · rw [List.get?_eq_none.mpr (by simp; omega),
        List.get?_eq_none.mpr (by simp; omega)]

theorem pushAll_spec (F : Nat) (hF : 0 < F) :
    ∀ (xs p : List (List Char)),
    pushAll (stateOf F p) xs =
      (stateOf F (p ++ xs),
       (List.range xs.length).map fun k =>
         if p.length + k < F then none else (p ++ xs).get? (p.length + k - F)) := by
  intro xs
  induction xs with
  | nil =>
    intro p
    simp [pushAll]
  | cons x xs ih =>
    intro p
    simp only [pushAll]
    rw [queue_step F hF p x, ih (p ++ [x])]
    rw [List.append_assoc, List.singleton_append]
    simp only [List.length_cons, List.range_succ_eq_map, List.map_cons, List.map_map]
    refine congrArg _ ?_
    refine congrArg₂ _ ?_ ?_
    · by_cases h : p.length < F
      · rw [if_pos h, if_pos (by omega)]
      · rw [if_neg h, if_neg (by omega),
          show p.length + 0 - F = p.length - F from by omega,
          List.get?_append (by omega : p.length - F < p.length)]
    · apply List.map_congr_left
      intro k _
      simp only [Function.comp_apply, List.length_append, List.length_singleton]
      by_cases h : p.length + 1 + k < F
      · rw [if_pos h, if_pos (by omega)]
      · rw [if_neg h, if_neg (by omega),
          show p.length + 1 + k - F = p.length + (k + 1) - F from by omega]

theorem pushAll_zero (xs : List (List Char)) :
    pushAll { items := [], i := 0, looped := false } xs =
      ({ items := [], i := 0, looped := false }, xs.map some) := by
  induction xs with
  | nil => rfl
  | cons x xs ih => simp [pushAll, QueueDequeue, ih]

theorem results_get {A : Type} (f : Nat → A) (m k : Nat) (hk : k < m) :
    ((List.range m).map f).get? k = some (f k) := by
  rw [List.get?_map, List.get?_range hk, Option.map_some']

/-- C7 (confirmed): for a queue of capacity `F > 0`, each of the first `F`
pushes returns the `nil` sentinel, every later push returns the item from
`F` pushes earlier, and draining returns the still-buffered items in
chronological push order (the last `min F n` pushes); with capacity 3 and
five pushes, the fourth push returns item 1 and `Drain` yields items 3, 4,
5; a capacity-0 queue returns each pushed item immediately and drains to
the empty list. -/
theorem C7_delay_queue :
    (∀ (F : Nat) (cb : circularBuffer), 0 < F →
      newCircularBuffer (F : Int) = some cb →
      ∀ xs : List (List Char),
        (∀ k, k < F → k < xs.length → (pushAll cb xs).2.get? k = some none) ∧
        (∀ k, F ≤ k → k < xs.length →
          (pushAll cb xs).2.get? k = some (xs.get? (k - F))) ∧
        Drain (pushAll cb xs).1 =
          (xs.drop (xs.length - min F xs.length)).map some) ∧
    (∀ cb : circularBuffer, newCircularBuffer 0 = some cb →
      (∀ x, QueueDequeue cb x = (cb, some x)) ∧
      ∀ xs, (pushAll cb xs).2 = xs.map some ∧ Drain (pushAll cb xs).1 = []) ∧
    (pushAll (stateOf 3 []) [['1'], ['2'], ['3'], ['4'], ['5']]).2 =
      [none, none, none, some ['1'], some ['2']] ∧
    Drain (pushAll (stateOf 3 []) [['1'], ['2'], ['3'], ['4'], ['5']]).1 =
      [some ['3'], some ['4'], some ['5']] := by
  refine ⟨?_, ?_, by decide, by decide⟩
  · intro F cb hF hcb xs
    rw [newCircularBuffer_pos F hF] at hcb
    have hcb2 := (Option.some.injEq _ _).mp hcb
    subst hcb2
    rw [pushAll_spec F hF xs []]
    simp only [List.nil_append, List.length_nil, Nat.zero_add]
    refine ⟨?_, ?_, ?_⟩
    · intro k hk hklen
      rw [results_get _ _ _ hklen]
      rw [if_pos hk]
    · intro k hk hklen
      rw [results_get _ _ _ hklen]
      rw [if_neg (by omega)]
    · exact Drain_stateOf F hF xs
  · intro cb hcb
    have hcb2 : ({ items := [], i := 0, looped := false } : circularBuffer) = cb :=
      Option.some.inj hcb
    subst hcb2
    refine ⟨fun x => rfl, fun xs => ?_⟩
    rw [pushAll_zero xs]
    exact ⟨rfl, rfl⟩

theorem extentsLoop_ln_irrel (H : Int) (hH : H ≤ 0) :
    ∀ (xs : List (List Char)) (ln1 ln2 : Int) (cb : circularBuffer)
      (lines : List (List Char)) (merged : List extent) (out : List Nat),
    extentsLoop xs H ln1 cb lines merged out =
      extentsLoop xs H ln2 cb lines merged out := by
  intro xs
  induction xs with
  | nil => intro ln1 ln2 cb lines merged out; rfl
  | cons x rest ih =>
    intro ln1 ln2 cb lines merged out
    simp only [extentsLoop]
    rw [if_neg (by omega), if_neg (by omega)]
    cases (QueueDequeue cb x).2 with
    | none => exact ih ln1 ln2 _ _ _ _
    | some ll => exact ih ln1 ln2 _ _ _ _

theorem QueueDequeue_zero (x : List Char) :
    QueueDequeue { items := [], i := 0, looped := false } x =
      ({ items := [], i := 0, looped := false }, some x) := rfl

theorem extentsLoop_body_zero :
    ∀ (xs : List (List Char)) (H ln : Int) (lines : List (List Char))
      (merged : List extent) (out : List Nat), H ≤ 0 →
    extentsLoop xs H ln { items := [], i := 0, looped := false } lines merged out =
      ({ items := [], i := 0, looped := false }, lines ++ xs,
       xs.foldl (fun acc l => mergeExtents acc (extentsFromLine l)) merged, out) := by
  intro xs
  induction xs with
  | nil => intro H ln lines merged out hH; simp [extentsLoop]
  | cons x rest ih =>
    intro H ln lines merged out hH
    simp only [extentsLoop]
    rw [if_neg (by omega)]
    simp only [QueueDequeue_zero]
    rw [ih H ln (lines ++ [x]) _ out hH]
    simp [List.foldl_cons, List.append_assoc]

theorem take_drop_cons {α : Type} (q : List α) (T k : Nat) (hkT : k < T)
    (hkq : k < q.length) (v : α) (hv : q.get? k = some v) :
    (q.take T).drop k = v :: (q.take T).drop (k + 1) := by
  have hlen : k < (q.take T).length := by rw [List.length_take]; omega
  rw [List.drop_eq_get_cons hlen]
  congr 1
  have h2 : (q.take T).get? k = some ((q.take T).get ⟨k, hlen⟩) := List.get?_eq_get hlen
  rw [List.get?_take hkT, hv] at h2
  exact (Option.some.inj h2).symm

theorem extentsLoop_body (F : Nat) (hF : 0 < F) :
    ∀ (xs p : List (List Char)) (H ln : Int) (lines : List (List Char))
      (merged : List extent) (out : List Nat), H ≤ 0 →
    extentsLoop xs H ln (stateOf F p) lines merged out =
      (stateOf F (p ++ xs),
       lines ++ ((p ++ xs).take (p.length + xs.length - F)).drop (p.length - F),
       (((p ++ xs).take (p.length + xs.length - F)).drop (p.length - F)).foldl
         (fun acc l => mergeExtents acc (extentsFromLine l)) merged,
       out) := by
  intro xs
  induction xs with
  | nil =>
    intro p H ln lines merged out hH
    simp only [extentsLoop, List.append_nil, List.length_nil, Nat.add_zero]
    rw [show (p.take (p.length - F)).drop (p.length - F) = [] from
      List.drop_eq_nil_of_le (by rw [List.length_take]; omega)]
    simp
  | cons x xs ih =>
    intro p H ln lines merged out hH
    simp only [extentsLoop]
    rw [if_neg (by omega)]
    rw [queue_step F hF p x]
    by_cases hpF : p.length < F
    · rw [if_pos hpF]
      simp only
      rw [ih (p ++ [x]) H ln lines merged out hH]
      have e1 : p ++ [x] ++ xs = p ++ x :: xs := by simp
      have e2 : ((p ++ [x] ++ xs).take ((p ++ [x]).length + xs.length - F)).drop
            ((p ++ [x]).length - F) =
          ((p ++ x :: xs).take (p.length + (x :: xs).length - F)).drop
            (p.length - F) := by
        rw [e1]
        simp only [List.length_append, List.length_cons, List.length_nil,
          Nat.zero_add]
        rw [show p.length + 1 + xs.length = p.length + (xs.length + 1) from by omega,
          show p.length + 1 - F = 0 from by omega,
          show p.length - F = 0 from by omega]
      rw [e2, e1]
    · rw [if_neg hpF]
      obtain ⟨v, hv⟩ : ∃ v, p.get? (p.length - F) = some v :=
        ⟨_, List.get?_eq_get (by omega)⟩
      rw [hv]
      simp only
      rw [ih (p ++ [x]) H ln (lines ++ [v]) (mergeExtents merged (extentsFromLine v))
        out hH]
      have e1 : p ++ [x] ++ xs = p ++ x :: xs := by simp
      have hT : p.length - F < p.length + (x :: xs).length - F := by simp; omega
      have hkq : p.length - F < (p ++ x :: xs).length := by simp; omega
      have hvq : (p ++ x :: xs).get? (p.length - F) = some v := by
        rw [List.get?_append (by omega)]
        exact hv
      have hsplit : ((p ++ x :: xs).take (p.length + (x :: xs).length - F)).drop
            (p.length - F) =
          v :: ((p ++ [x] ++ xs).take ((p ++ [x]).length + xs.length - F)).drop
            ((p ++ [x]).length - F) := by
        rw [take_drop_cons _ _ _ hT hkq v hvq, e1]
        simp only [List.length_append, List.length_cons, List.length_nil,
          Nat.zero_add]
        rw [show p.length + 1 + xs.length = p.length + (xs.length + 1) from by omega,
          show p.length + 1 - F = p.length - F + 1 from by omega]
      rw [hsplit, e1]
      simp [List.append_assoc]

theorem extentsLoop_header :
    ∀ (xs : List (List Char)) (H ln : Int) (cb : circularBuffer)
      (lines : List (List Char)) (merged : List extent) (out : List Nat),
      0 < H → 0 ≤ ln → ln ≤ H →
    extentsLoop xs H ln cb lines merged out =
      extentsLoop (xs.drop (H - ln).toNat) 0 0 cb lines merged
        (out ++ ((xs.take (H - ln).toNat).map fun l => lineBytes l ++ [10]).flatten) := by
  intro xs
  induction xs with
  | nil =>
    intro H ln cb lines merged out hH hln1 hln2
    simp [extentsLoop]
  | cons x rest ih =>
    intro H ln cb lines merged out hH hln1 hln2
    by_cases hcase : ln + 1 ≤ H
    · conv_lhs => simp only [extentsLoop]
      rw [if_pos hH, if_pos hcase]
      rw [ih H (ln + 1) cb lines merged (out ++ lineBytes x ++ [10])
        hH (by omega) hcase]
      rw [show (H - ln).toNat = (H - (ln + 1)).toNat + 1 from by omega]
      rw [List.drop_succ_cons, List.take_succ_cons, List.map_cons,
        List.flatten_cons]
      simp [List.append_assoc]
    · have hlnH : ln = H := by omega
      rw [show (H - ln).toNat = 0 from by omega, List.drop_zero, List.take_zero]
      simp only [List.map_nil, List.flatten_nil, List.append_nil]
      conv_lhs => simp only [extentsLoop]
      conv_rhs => simp only [extentsLoop]
      rw [if_pos hH, if_neg hcase, if_neg (by omega : ¬ (0:Int) < 0)]
      cases (QueueDequeue cb x).2 with
      | none => exact extentsLoop_ln_irrel 0 (by omega) rest (ln + 1) 0 _ _ _ _
      | some ll => exact extentsLoop_ln_irrel 0 (by omega) rest (ln + 1) 0 _ _ _ _

theorem extentsLoop_run (H F : Int) (hH : 0 ≤ H) (hF : 0 ≤ F)
    (input : List (List Char)) (cb0 : circularBuffer)
    (hcb : newCircularBuffer F = some cb0) :
    ∃ cbf,
      extentsLoop input H 0 cb0 [] [] [] =
        (cbf,
         (input.take (input.length - F.toNat)).drop H.toNat,
         inferMerged ((input.take (input.length - F.toNat)).drop H.toNat),
         ((input.take H.toNat).map fun l => lineBytes l ++ [10]).flatten) ∧
      Drain cbf = (input.drop (max (input.length - F.toNat) H.toNat)).map some := by
  have hphase1 : extentsLoop input H 0 cb0 [] [] [] =
      extentsLoop (input.drop H.toNat) 0 0 cb0 [] []
        ((input.take H.toNat).map fun l => lineBytes l ++ [10]).flatten := by
    by_cases hH0 : 0 < H
    · rw [extentsLoop_header input H 0 cb0 [] [] [] hH0 (le_refl 0) (by omega)]
      rw [show (H - 0).toNat = H.toNat from by omega]
      simp
    · have : H = 0 := by omega
      subst this
      simp [extentsLoop_ln_irrel]
  rw [hphase1]
  have hbody : (input.drop H.toNat).take ((input.drop H.toNat).length - F.toNat) =
      (input.take (input.length - F.toNat)).drop H.toNat := by
    rw [List.length_drop,
      show input.length - H.toNat - F.toNat =
        input.length - F.toNat - H.toNat from by omega]
    exact (List.drop_take _ _ _).symm
  by_cases hF0 : F = 0
  · subst hF0
    have hcb2 : ({ items := [], i := 0, looped := false } : circularBuffer) = cb0 :=
      Option.some.inj hcb
    subst hcb2
    rw [extentsLoop_body_zero (input.drop H.toNat) 0 0 [] [] _ (le_refl 0)]
    refine ⟨{ items := [], i := 0, looped := false }, ?_, ?_⟩
    · rw [show ((input.drop H.toNat) : List (List Char)) =
        (input.take (input.length - Int.toNat 0)).drop H.toNat from by
          rw [show Int.toNat 0 = 0 from rfl, Nat.sub_zero, List.take_length]]
      simp [inferMerged]
    · rw [show Drain { items := [], i := 0, looped := false } = [] from rfl]
      rw [show input.drop (max (input.length - Int.toNat 0) H.toNat) = [] from
        List.drop_eq_nil_of_le (by omega)]
      simp
  · have hFpos : 0 < F.toNat := by omega
    have hcast : ((F.toNat : Int)) = F := by omega
    have hcb2 : stateOf F.toNat [] = cb0 := by
      rw [← hcast] at hcb
      exact Option.some.inj ((newCircularBuffer_pos F.toNat hFpos).symm.trans hcb)
    subst hcb2
    rw [extentsLoop_body F.toNat hFpos (input.drop H.toNat) [] 0 0 [] [] _ (le_refl 0)]
    simp only [List.nil_append, List.length_nil, Nat.zero_add, Nat.zero_sub,
      List.drop_zero]
    refine ⟨stateOf F.toNat (input.drop H.toNat), ?_, ?_⟩
    · rw [hbody]
      rfl
    · rw [Drain_stateOf F.toNat hFpos]
      congr 1
      rw [List.drop_drop]
      congr 1
      rw [List.length_drop]
      omega

theorem utf8EncodeChar_length_pos (c : Char) : 0 < (utf8EncodeChar c).length := by
  unfold utf8EncodeChar
  dsimp only
  split
  · simp
  · split
    · simp
    · split <;> simp

theorem lineBytes_length (line : List Char) :
    line.length ≤ (lineBytes line).length := by
  induction line with
  | nil => simp [lineBytes]
  | cons c rest ih =>
    simp only [lineBytes, List.map_cons, List.flatten_cons, List.length_append,
      List.length_cons]
    have := utf8EncodeChar_length_pos c
    have h2 : (lineBytes rest).length = ((rest.map utf8EncodeChar).flatten).length := rfl
    omega

theorem goSlice_some {bs : List Nat} {a b : Int} (h0 : 0 ≤ a) (hab : a ≤ b)
    (hb : b ≤ (bs.length : Int)) :
    ∃ sub, goSlice bs a b = some sub ∧ ∀ x ∈ sub, x ∈ bs := by
  refine ⟨_, by unfold goSlice; rw [if_pos ⟨h0, hab, hb⟩], ?_⟩
  intro x hx
  exact List.mem_of_mem_drop (List.mem_of_mem_take hx)

theorem trimLeftSpace_subset :
    ∀ (fuel : Nat) (s : List Nat), ∀ x ∈ trimLeftSpace fuel s, x ∈ s := by
  intro fuel
  induction fuel with
  | zero => intro s x hx; exact hx
  | succ fuel ih =>
    intro s x hx
    match s with
    | [] => exact hx
    | b :: t =>
      simp only [trimLeftSpace] at hx
      split at hx
      · exact List.mem_of_mem_drop (ih _ _ hx)
      · exact hx

theorem trimRightSpace_subset :
    ∀ (fuel : Nat) (s : List Nat), ∀ x ∈ trimRightSpace fuel s, x ∈ s := by
  intro fuel
  induction fuel with
  | zero => intro s x hx; exact hx
  | succ fuel ih =>
    intro s x hx
    match s with
    | [] => exact hx
    | b :: t =>
      simp only [trimRightSpace] at hx
      split at hx
      · exact List.mem_of_mem_take (ih _ _ hx)
      · exact hx

theorem trimSpaceBack_subset :
    ∀ (fuel : Nat) (s : List Nat), ∀ x ∈ trimSpaceBack fuel s, x ∈ s := by
  intro fuel
  induction fuel with
  | zero => intro s x hx; exact hx
  | succ fuel ih =>
    intro s x hx
    match s with
    | [] => exact hx
    | b :: t =>
      simp only [trimSpaceBack] at hx
      split at hx
      · exact trimRightSpace_subset _ _ x hx
      · split at hx
        · exact List.mem_of_mem_take (ih _ _ hx)
        · exact hx

theorem trimSpace_subset :
    ∀ (s : List Nat), ∀ x ∈ trimSpace s, x ∈ s := by
  intro s
  induction s with
  | nil => intro x hx; exact hx
  | cons b t ih =>
    intro x hx
    simp only [trimSpace] at hx
    split at hx
    · exact trimLeftSpace_subset _ _ x (trimRightSpace_subset _ _ x hx)
    · split at hx
      · exact List.mem_cons_of_mem _ (ih x hx)
      · exact trimSpaceBack_subset _ _ x hx

theorem fieldsLoop_inv (bs : List Nat) (e0 : extent) (t : List extent)
    (he0 : 1 ≤ e0.l ∧ e0.l ≤ e0.r) :
    ∀ (n : Nat) (fields : List (List Nat)) (ei : Nat) (column wordStart : Int),
    ei < (e0 :: t).length →
    0 ≤ column →
    column + n ≤ (bs.length : Int) →
    wordStart ≤ column →
    (wordStart = 0 → ei = 0 ∧ column < e0.l) →
    (wordStart ≠ 0 → 1 ≤ wordStart) →
    (∀ f ∈ fields, ∀ b ∈ f, b ∈ bs) →
    ∃ fields2 ei2 column2 wordStart2,
      fieldsLoop bs (e0 :: t) n fields ei column wordStart =
        some (fields2, ei2, column2, wordStart2) ∧
      fields2.length = fields.length ∧
      (∀ f ∈ fields2, ∀ b ∈ f, b ∈ bs) ∧
      0 ≤ column2 ∧ wordStart2 ≤ column2 ∧ column2 ≤ (bs.length : Int) ∧
      ei2 ≤ (e0 :: t).length ∧
      (wordStart2 = 0 → ei2 = 0 ∧ column2 < e0.l) ∧
      (wordStart2 ≠ 0 → 1 ≤ wordStart2) ∧
      (ei2 = (e0 :: t).length ∨ column2 = column + n) := by
  intro n
  induction n with
  | zero =>
    intro fields ei column wordStart hei hc0 hcn hwc hw0 hw1 hsub
    refine ⟨fields, ei, column, wordStart, rfl, rfl, hsub, hc0, hwc, by omega,
      by omega, hw0, hw1, Or.inr (by omega)⟩
  | succ n ih =>
    intro fields ei column wordStart hei hc0 hcn hwc hw0 hw1 hsub
    obtain ⟨e, he⟩ : ∃ e, (e0 :: t).get? ei = some e := ⟨_, List.get?_eq_get hei⟩
    simp only [fieldsLoop]
    rw [he]
    simp only
    by_cases h1 : column + 1 < e.l
    · rw [if_pos h1]
      have hinv0 : wordStart = 0 → ei = 0 ∧ column + 1 < e0.l := by
        intro hz
        obtain ⟨hz1, _⟩ := hw0 hz
        refine ⟨hz1, ?_⟩
        subst hz1
        simp only [List.get?_cons_zero, Option.some.injEq] at he
        subst he
        exact h1
      obtain ⟨f2, e2, c2, w2, hrun, hl, hs, h3, h4, h5, h6, h7, h8, h9⟩ :=
        ih fields ei (column + 1) wordStart hei (by omega) (by omega) (by omega)
          hinv0 hw1 hsub
      exact ⟨f2, e2, c2, w2, hrun, hl, hs, h3, h4, h5, h6, h7, h8, by
        rcases h9 with h | h
        · exact Or.inl h
        · exact Or.inr (by omega)⟩
    · rw [if_neg h1]
      by_cases h2 : column + 1 = e.l
      · rw [if_pos h2]
        have hinv0 : column + 1 = 0 → ei = 0 ∧ column + 1 < e0.l := by
          intro hz
          omega
        obtain ⟨f2, e2, c2, w2, hrun, hl, hs, h3, h4, h5, h6, h7, h8, h9⟩ :=
          ih fields ei (column + 1) (column + 1) hei (by omega) (by omega)
            (by omega) hinv0 (by intro _; omega) hsub
        exact ⟨f2, e2, c2, w2, hrun, hl, hs, h3, h4, h5, h6, h7, h8, by
          rcases h9 with h | h
          · exact Or.inl h
          · exact Or.inr (by omega)⟩
      · rw [if_neg h2]
        by_cases h3 : column + 1 > e.r
        · rw [if_pos h3]
          have hws1 : 1 ≤ wordStart := by
            by_cases hz : wordStart = 0
            · obtain ⟨hz1, hz2⟩ := hw0 hz
              subst hz1
              simp only [List.get?_cons_zero, Option.some.injEq] at he
              subst he
              omega
            · exact hw1 hz
          obtain ⟨sub, hsubeq, hsubmem⟩ :=
            @goSlice_some bs (wordStart - 1) (column + 1)
              (by omega) (by omega) (by omega)
          rw [hsubeq]
          simp only
          have hsub2 : ∀ f ∈ fields.set ei (trimSpace sub), ∀ b ∈ f, b ∈ bs := by
            intro f hf b hb
            rcases List.mem_or_eq_of_mem_set hf with hf2 | hf2
            · exact hsub f hf2 b hb
            · subst hf2
              exact hsubmem b (trimSpace_subset sub b hb)
          by_cases h4 : ei + 1 = (e0 :: t).length
          · rw [if_pos h4]
            refine ⟨_, _, _, _, rfl, by simp, hsub2, by omega, by omega, by omega,
              by omega, by intro hz; omega, by intro _; omega, Or.inl h4⟩
          · rw [if_neg h4]
            obtain ⟨f2, e2, c2, w2, hrun, hl, hs, h5, h6, h7, h8, h9, h10, h11⟩ :=
              ih (fields.set ei (trimSpace sub)) (ei + 1) (column + 1) wordStart
                (by omega) (by omega) (by omega) (by omega)
                (by intro hz; omega) (by intro _; omega) hsub2
            refine ⟨f2, e2, c2, w2, hrun, by rw [hl]; simp, hs, h5, h6, h7, h8,
              h9, h10, by
                rcases h11 with h | h
                · exact Or.inl h
                · exact Or.inr (by omega)⟩
        · rw [if_neg h3]
          have hinv0 : wordStart = 0 → ei = 0 ∧ column + 1 < e0.l := by
            intro hz
            obtain ⟨hz1, hz2⟩ := hw0 hz
            subst hz1
            simp only [List.get?_cons_zero, Option.some.injEq] at he
            subst he
            omega
          obtain ⟨f2, e2, c2, w2, hrun, hl, hs, h5, h6, h7, h8, h9, h10, h11⟩ :=
            ih fields ei (column + 1) wordStart hei (by omega) (by omega)
              (by omega) hinv0 hw1 hsub
          exact ⟨f2, e2, c2, w2, hrun, hl, hs, h5, h6, h7, h8, h9, h10, by
            rcases h11 with h | h
            · exact Or.inl h
            · exact Or.inr (by omega)⟩

theorem fieldsFromExtents_isSome (line : List Char) (e0 : extent) (t : List extent)
    (he0 : 1 ≤ e0.l ∧ e0.l ≤ e0.r) (hlen : e0.l ≤ (line.length : Int)) :
    ∃ fs, fieldsFromExtents line (e0 :: t) = some fs ∧
      fs.length = (e0 :: t).length ∧ ∀ f ∈ fs, ∀ b ∈ f, b ∈ lineBytes line := by
  have hbl := lineBytes_length line
  obtain ⟨f2, e2, c2, w2, hrun, hl, hs, h3, h4, h5, h6, h7, h8, h9⟩ :=
    fieldsLoop_inv (lineBytes line) e0 t he0 line.length
      (List.replicate (e0 :: t).length []) 0 0 0
      (by simp) (le_refl 0) (by omega) (le_refl 0)
      (fun _ => ⟨rfl, by omega⟩) (fun h => absurd rfl h)
      (by intro f hf b hb; rw [List.eq_of_mem_replicate hf] at hb; exact absurd hb (by simp))
  unfold fieldsFromExtents
  dsimp only
  rw [hrun]
  simp only
  by_cases hei : e2 < (e0 :: t).length
  · rw [if_pos hei]
    have hw2 : 1 ≤ w2 := by
      by_cases hz : w2 = 0
      · obtain ⟨hz1, hz2⟩ := h7 hz
        rcases h9 with h | h
        · omega
        · rw [h] at hz2
          simp only [Int.zero_add] at hz2
          omega
      · exact h8 hz
    obtain ⟨sub, hsubeq, hsubmem⟩ :=
      @goSlice_some (lineBytes line) (w2 - 1) c2
        (by omega) (by omega) (by omega)
    rw [hsubeq]
    refine ⟨_, rfl, by rw [List.length_set, hl]; simp, ?_⟩
    intro f hf b hb
    rcases List.mem_or_eq_of_mem_set hf with hf2 | hf2
    · exact hs f hf2 b hb
    · subst hf2
      exact hsubmem b (trimSpace_subset sub b hb)
  · rw [if_neg hei]
    exact ⟨f2, rfl, by rw [hl]; simp, hs⟩

theorem foldMerge_wf :
    ∀ (lines : List (List Char)) (acc : List extent),
    (∀ e ∈ acc, 1 ≤ e.l ∧ e.l ≤ e.r) →
    ∀ e ∈ lines.foldl (fun acc l => mergeExtents acc (extentsFromLine l)) acc,
      1 ≤ e.l ∧ e.l ≤ e.r := by
  intro lines
  induction lines with
  | nil => intro acc hacc e he; exact hacc e he
  | cons l rest ih =>
    intro acc hacc e he
    rw [List.foldl_cons] at he
    exact ih _ (mergeExtents_wf hacc (extentsFromLine_wf l)) e he

theorem inferMerged_wf (lines : List (List Char)) :
    ∀ e ∈ inferMerged lines, 1 ≤ e.l ∧ e.l ≤ e.r :=
  foldMerge_wf lines [] (by intro e he; exact absurd he (by simp))

theorem printLines_ok (pf : List Nat → Bool) (cfg : Config) (merged : List extent) :
    ∀ (ls : List (List Char)) (out : List Nat),
    (∀ l ∈ ls, (fieldsFromExtents l merged).isSome) →
    printLines pf cfg merged ls out =
      .ok (out ++ (ls.map fun l =>
        formatLoop pf cfg (lineBytes cfg.optDelimiter) merged
          ((fieldsFromExtents l merged).getD [])).flatten) := by
  intro ls
  induction ls with
  | nil => intro out _; simp [printLines]
  | cons l rest ih =>
    intro out hsome
    obtain ⟨fs, hfs⟩ := Option.isSome_iff_exists.mp (hsome l (List.mem_cons_self _ _))
    simp only [printLines]
    rw [hfs]
    simp only
    rw [ih _ fun l2 hl2 => hsome l2 (List.mem_cons_of_mem _ hl2)]
    rw [List.map_cons, List.flatten_cons, hfs]
    simp [List.append_assoc]

theorem drainPrint_ok :
    ∀ (fs : List (List Char)) (out : List Nat),
    drainPrint (fs.map some) out =
      .ok (out ++ (fs.map fun l => lineBytes l ++ [10]).flatten) := by
  intro fs
  induction fs with
  | nil => intro out; simp [drainPrint]
  | cons l rest ih =>
    intro out
    simp only [List.map_cons, drainPrint]
    rw [ih]
    simp [List.append_assoc]

theorem linesOfAux_chunk :
    ∀ (l : List Nat), 10 ∉ l → ∀ (R acc : List Nat),
    linesOfAux (l ++ 10 :: R) acc = (acc ++ l) :: linesOfAux R [] := by
  intro l
  induction l with
  | nil =>
    intro _ R acc
    simp [linesOfAux]
  | cons c l ih =>
    intro hc R acc
    have hc10 : c ≠ 10 := by intro h; exact hc (by rw [h]; exact List.mem_cons_self _ _)
    simp only [List.cons_append, linesOfAux, if_neg hc10]
    rw [show l.append (10 :: R) = l ++ 10 :: R from rfl,
      ih (fun h => hc (List.mem_cons_of_mem _ h)) R (acc ++ [c])]
    simp

theorem linesOf_flatten :
    ∀ (ls : List (List Nat)), (∀ l ∈ ls, 10 ∉ l) →
    linesOf ((ls.map fun l => l ++ [10]).flatten) = ls := by
  intro ls hls
  have haux : ∀ (ls2 : List (List Nat)), (∀ l ∈ ls2, 10 ∉ l) →
      linesOfAux ((ls2.map fun l => l ++ [10]).flatten) [] = ls2 := by
    intro ls2
    induction ls2 with
    | nil => intro _; rfl
    | cons l rest ih =>
      intro h
      rw [List.map_cons, List.flatten_cons]
      rw [show (l ++ [10]) ++ (rest.map fun l => l ++ [10]).flatten =
        l ++ 10 :: (rest.map fun l => l ++ [10]).flatten from by simp]
      rw [linesOfAux_chunk l (h l (List.mem_cons_self _ _)) _ []]
      rw [ih fun l2 hl2 => h l2 (List.mem_cons_of_mem _ hl2)]
      simp
  exact haux ls hls

theorem utf8EncodeChar_ne10 (c : Char) (hc : c.toNat ≠ 10) :
    (10 : Nat) ∉ utf8EncodeChar c := by
  unfold utf8EncodeChar
  dsimp only
  split
  · simp
    omega
  · split
    · simp
      omega
    · split <;> simp <;> omega

theorem lineBytes_ne10 (line : List Char) (h : ∀ c ∈ line, c.toNat ≠ 10) :
    (10 : Nat) ∉ lineBytes line := by
  induction line with
  | nil => simp [lineBytes]
  | cons c rest ih =>
    simp only [lineBytes, List.map_cons, List.flatten_cons]
    intro hmem
    rcases List.mem_append.mp hmem with h2 | h2
    · exact utf8EncodeChar_ne10 c (h c (List.mem_cons_self _ _)) h2
    · exact ih (fun c2 hc2 => h c2 (List.mem_cons_of_mem _ hc2)) h2

theorem left_no10 {w : Int} {f d : List Nat} (hf : (10 : Nat) ∉ f)
    (hd : (10 : Nat) ∉ d) : (10 : Nat) ∉ left w f d := by
  unfold left
  intro hmem
  rcases List.mem_append.mp hmem with h | h
  · rcases List.mem_append.mp h with h | h
    · exact hf h
    · have := List.eq_of_mem_replicate h
      omega
  · exact hd h

theorem right_no10 {w : Int} {f d : List Nat} (hf : (10 : Nat) ∉ f)
    (hd : (10 : Nat) ∉ d) : (10 : Nat) ∉ right w f d := by
  unfold right
  intro hmem
  rcases List.mem_append.mp hmem with h | h
  · rcases List.mem_append.mp h with h | h
    · have := List.eq_of_mem_replicate h
      omega
    · exact hf h
  · exact hd h

theorem left_newline (w : Int) (f : List Nat) :
    left w f [10] = (f ++ List.replicate
      (w - (runeCountBytes f.length f : Int)).toNat 32) ++ [10] := by
  unfold left
  rw [List.append_assoc]

theorem right_newline (w : Int) (f : List Nat) :
    right w f [10] = (List.replicate
      (w - (runeCountBytes f.length f : Int)).toNat 32 ++ f) ++ [10] := by
  unfold right
  rw [List.append_assoc]

theorem formatLoop_chunk (pf : List Nat → Bool) (cfg : Config)
    (delimBytes : List Nat) (hd : (10 : Nat) ∉ delimBytes) :
    ∀ (fields : List (List Nat)) (merged : List extent),
    fields ≠ [] → (∀ f ∈ fields, (10 : Nat) ∉ f) →
    ∃ body, formatLoop pf cfg delimBytes merged fields = body ++ [10] ∧
      (10 : Nat) ∉ body := by
  intro fields
  induction fields with
  | nil => intro merged h _; exact absurd rfl h
  | cons f fs ih =>
    intro merged _ hmem
    have hf : (10 : Nat) ∉ f := hmem f (List.mem_cons_self _ _)
    cases fs with
    | nil =>
      rw [show formatLoop pf cfg delimBytes merged [f] =
        (if cfg.optLeftJustify then left (width (merged.headD { l := 0, r := 0 })) f [10]
         else if cfg.optRightJustify then right (width (merged.headD { l := 0, r := 0 })) f [10]
         else if pf f then right (width (merged.headD { l := 0, r := 0 })) f [10]
         else left (width (merged.headD { l := 0, r := 0 })) f [10]) ++ [] from rfl,
        List.append_nil]
      have hchoice : ∀ w : Int,
          (if cfg.optLeftJustify then left w f [10]
           else if cfg.optRightJustify then right w f [10]
           else if pf f then right w f [10]
           else left w f [10]) = left w f [10] ∨
          (if cfg.optLeftJustify then left w f [10]
           else if cfg.optRightJustify then right w f [10]
           else if pf f then right w f [10]
           else left w f [10]) = right w f [10] := by
        intro w
        split_ifs <;> simp
      rcases hchoice (width (merged.headD { l := 0, r := 0 })) with h | h <;> rw [h]
      · rw [left_newline]
        refine ⟨_, rfl, ?_⟩
        intro hmem2
        rcases List.mem_append.mp hmem2 with h2 | h2
        · exact hf h2
        · have := List.eq_of_mem_replicate h2
          omega
      · rw [right_newline]
        refine ⟨_, rfl, ?_⟩
        intro hmem2
        rcases List.mem_append.mp hmem2 with h2 | h2
        · have := List.eq_of_mem_replicate h2
          omega
        · exact hf h2
    | cons g gs =>
      obtain ⟨body2, hbody2, hb2⟩ := ih merged.tail (by simp)
        fun f2 hf2 => hmem f2 (List.mem_cons_of_mem _ hf2)
      rw [show formatLoop pf cfg delimBytes merged (f :: g :: gs) =
        (if cfg.optLeftJustify then left (width (merged.headD { l := 0, r := 0 })) f delimBytes
         else if cfg.optRightJustify then right (width (merged.headD { l := 0, r := 0 })) f delimBytes
         else if pf f then right (width (merged.headD { l := 0, r := 0 })) f delimBytes
         else left (width (merged.headD { l := 0, r := 0 })) f delimBytes) ++
        formatLoop pf cfg delimBytes merged.tail (g :: gs) from rfl]
      rw [hbody2]
      have hchunk : (10 : Nat) ∉
          (if cfg.optLeftJustify then left (width (merged.headD { l := 0, r := 0 })) f delimBytes
           else if cfg.optRightJustify then right (width (merged.headD { l := 0, r := 0 })) f delimBytes
           else if pf f then right (width (merged.headD { l := 0, r := 0 })) f delimBytes
           else left (width (merged.headD { l := 0, r := 0 })) f delimBytes) := by
        split_ifs <;> first
          | exact left_no10 hf hd
          | exact right_no10 hf hd
      refine ⟨_ ++ body2, by rw [List.append_assoc], ?_⟩
      intro hmem2
      rcases List.mem_append.mp hmem2 with h2 | h2
      · exact hchunk h2
      · exact hb2 h2

theorem newCircularBuffer_some (n : Int) (h : 0 ≤ n) :
    ∃ cb, newCircularBuffer n = some cb := by
  by_cases h0 : n = 0
  · exact ⟨_, by unfold newCircularBuffer; rw [if_neg (by omega), if_pos h0]⟩
  · exact ⟨_, by unfold newCircularBuffer; rw [if_neg (by omega), if_neg h0]⟩

theorem extentsRun_done (pf : List Nat → Bool) (cfg : Config)
    (input body footer : List (List Char)) (merged : List extent)
    (hH : 0 ≤ cfg.optHeaderLines) (hF : 0 ≤ cfg.optFooterLines)
    (hbody : body = (input.take
      (input.length - cfg.optFooterLines.toNat)).drop cfg.optHeaderLines.toNat)
    (hfooter : footer = input.drop
      (max (input.length - cfg.optFooterLines.toNat) cfg.optHeaderLines.toNat))
    (hmerged : merged = inferMerged body)
    (hsafe : FormatSafe merged body) :
    extentsRun pf cfg input = .done (
      ((input.take cfg.optHeaderLines.toNat).map fun l => lineBytes l ++ [10]).flatten ++
      (body.map fun l => formatLoop pf cfg (lineBytes cfg.optDelimiter) merged
        ((fieldsFromExtents l merged).getD [])).flatten ++
      (footer.map fun l => lineBytes l ++ [10]).flatten) := by
  obtain ⟨cb0, hcb0⟩ := newCircularBuffer_some cfg.optFooterLines hF
  obtain ⟨cbf, hloop, hdrain⟩ := extentsLoop_run cfg.optHeaderLines
    cfg.optFooterLines hH hF input cb0 hcb0
  have hisSome : ∀ l ∈ body, (fieldsFromExtents l merged).isSome := by
    intro l hl
    rcases hm : merged with _ | ⟨e0, t⟩
    · rw [hm] at hsafe
      unfold FormatSafe at hsafe
      have : l = [] := hsafe l hl
      subst this
      rfl
    · rw [hm] at hsafe
      unfold FormatSafe at hsafe
      have he0wf : 1 ≤ e0.l ∧ e0.l ≤ e0.r := by
        have : e0 ∈ inferMerged body := by
          rw [← hmerged, hm]
          exact List.mem_cons_self _ _
        exact inferMerged_wf body e0 this
      obtain ⟨fs, hfs, _, _⟩ :=
        fieldsFromExtents_isSome l e0 t he0wf (hsafe l hl)
      rw [hfs]
      rfl
  unfold extentsRun
  rw [hcb0]
  simp only
  rw [hloop]
  simp only
  rw [← hbody, ← hmerged]
  rw [printLines_ok pf cfg merged body _ hisSome]
  simp only
  rw [hdrain, ← hfooter, drainPrint_ok footer _]

theorem flatten_eq_nil {α : Type} :
    ∀ (ls : List (List α)), (∀ l ∈ ls, l = []) → ls.flatten = [] := by
  intro ls
  induction ls with
  | nil => intro _; rfl
  | cons l rest ih =>
    intro h
    rw [List.flatten_cons, h l (List.mem_cons_self _ _), List.nil_append]
    exact ih fun l2 hl2 => h l2 (List.mem_cons_of_mem _ hl2)

theorem extentsRun_linesOf_nonempty (pf : List Nat → Bool) (cfg : Config)
    (input body footer : List (List Char)) (e0 : extent) (t : List extent)
    (hH : 0 ≤ cfg.optHeaderLines) (hF : 0 ≤ cfg.optFooterLines)
    (hnl : ∀ l ∈ input, ∀ c ∈ l, c.toNat ≠ 10)
    (hdel : ∀ c ∈ cfg.optDelimiter, c.toNat ≠ 10)
    (hbody : body = (input.take
      (input.length - cfg.optFooterLines.toNat)).drop cfg.optHeaderLines.toNat)
    (hfooter : footer = input.drop
      (max (input.length - cfg.optFooterLines.toNat) cfg.optHeaderLines.toNat))
    (hm : inferMerged body = e0 :: t)
    (hsafe : ∀ l ∈ body, e0.l ≤ (l.length : Int)) :
    ∃ out, extentsRun pf cfg input = .done out ∧
      linesOf out = (input.take cfg.optHeaderLines.toNat).map lineBytes ++
        body.map (bodyLineOut pf cfg (inferMerged body)) ++
        footer.map lineBytes := by
  have hsafe2 : FormatSafe (inferMerged body) body := by
    rw [hm]
    exact hsafe
  have hdone := extentsRun_done pf cfg input body footer (inferMerged body)
    hH hF hbody hfooter rfl hsafe2
  refine ⟨_, hdone, ?_⟩
  have hbmem : ∀ l ∈ body, l ∈ input := by
    rw [hbody]
    intro l hl
    exact List.mem_of_mem_take (List.mem_of_mem_drop hl)
  have hfmem : ∀ l ∈ footer, l ∈ input := by
    rw [hfooter]
    intro l hl
    exact List.mem_of_mem_drop hl
  have he0wf : 1 ≤ e0.l ∧ e0.l ≤ e0.r :=
    inferMerged_wf body e0 (by rw [hm]; exact List.mem_cons_self _ _)
  have hchunk : ∀ l ∈ body,
      formatLoop pf cfg (lineBytes cfg.optDelimiter) (inferMerged body)
        ((fieldsFromExtents l (inferMerged body)).getD []) =
        bodyLineOut pf cfg (inferMerged body) l ++ [10] ∧
      (10 : Nat) ∉ bodyLineOut pf cfg (inferMerged body) l := by
    intro l hl
    obtain ⟨fs, hfs, hlen, hsub⟩ :=
      fieldsFromExtents_isSome l e0 t he0wf (hsafe l hl)
    have hfs2 : (fieldsFromExtents l (inferMerged body)).getD [] = fs := by
      rw [hm, hfs]
      rfl
    have hne : fs ≠ [] := by
      intro h
      rw [h] at hlen
      simp at hlen
    have hf10 : ∀ f ∈ fs, (10 : Nat) ∉ f := by
      intro f hf hb
      exact lineBytes_ne10 l (hnl l (hbmem l hl)) (hsub f hf 10 hb)
    obtain ⟨bl, hbl, hbl10⟩ := formatLoop_chunk pf cfg (lineBytes cfg.optDelimiter)
      (lineBytes_ne10 cfg.optDelimiter hdel) fs (inferMerged body) hne hf10
    have hdrop : bodyLineOut pf cfg (inferMerged body) l = bl := by
      unfold bodyLineOut
      rw [hfs2, hbl, List.dropLast_concat]
    rw [hdrop, hfs2, hbl]
    exact ⟨rfl, hbl10⟩
  have hout : ((input.take cfg.optHeaderLines.toNat).map fun l =>
        lineBytes l ++ [10]).flatten ++
      (body.map fun l => formatLoop pf cfg (lineBytes cfg.optDelimiter)
        (inferMerged body) ((fieldsFromExtents l (inferMerged body)).getD [])).flatten ++
      (footer.map fun l => lineBytes l ++ [10]).flatten =
      (((input.take cfg.optHeaderLines.toNat).map lineBytes ++
        body.map (bodyLineOut pf cfg (inferMerged body)) ++
        footer.map lineBytes).map fun l => l ++ [10]).flatten := by
    rw [List.map_append, List.map_append, List.flatten_append, List.flatten_append]
    congr 2
    · rw [List.map_map]
      rfl
    · rw [List.map_map]
      congr 1
      exact List.map_congr_left fun l hl => (hchunk l hl).1
    · rw [List.map_map]
      rfl
  rw [hout, linesOf_flatten]
  intro l hl
  rcases List.mem_append.mp hl with hl2 | hl2
  · rcases List.mem_append.mp hl2 with hl3 | hl3
    · obtain ⟨l0, hl0, rfl⟩ := List.mem_map.mp hl3
      exact lineBytes_ne10 l0 (hnl l0 (List.mem_of_mem_take hl0))
    · obtain ⟨l0, hl0, rfl⟩ := List.mem_map.mp hl3
      exact (hchunk l0 hl0).2
  · obtain ⟨l0, hl0, rfl⟩ := List.mem_map.mp hl2
    exact lineBytes_ne10 l0 (hnl l0 (hfmem l0 hl0))

theorem extentsRun_linesOf_empty (pf : List Nat → Bool) (cfg : Config)
    (input body footer : List (List Char))
    (hH : 0 ≤ cfg.optHeaderLines) (hF : 0 ≤ cfg.optFooterLines)
    (hnl : ∀ l ∈ input, ∀ c ∈ l, c.toNat ≠ 10)
    (hbody : body = (input.take
      (input.length - cfg.optFooterLines.toNat)).drop cfg.optHeaderLines.toNat)
    (hfooter : footer = input.drop
      (max (input.length - cfg.optFooterLines.toNat) cfg.optHeaderLines.toNat))
    (hm : inferMerged body = [])
    (hempty : ∀ l ∈ body, l = []) :
    ∃ out, extentsRun pf cfg input = .done out ∧
      linesOf out = (input.take cfg.optHeaderLines.toNat).map lineBytes ++
        footer.map lineBytes := by
  have hsafe2 : FormatSafe (inferMerged body) body := by
    rw [hm]
    exact hempty
  have hdone := extentsRun_done pf cfg input body footer (inferMerged body)
    hH hF hbody hfooter rfl hsafe2
  refine ⟨_, hdone, ?_⟩
  have hfmem : ∀ l ∈ footer, l ∈ input := by
    rw [hfooter]
    intro l hl
    exact List.mem_of_mem_drop hl
  have hbodyflat : (body.map fun l => formatLoop pf cfg (lineBytes cfg.optDelimiter)
      (inferMerged body) ((fieldsFromExtents l (inferMerged body)).getD [])).flatten = [] := by
    apply flatten_eq_nil
    intro l2 hl2
    obtain ⟨l0, hl0, rfl⟩ := List.mem_map.mp hl2
    rw [hempty l0 hl0, hm]
    rfl
  have hout : ((input.take cfg.optHeaderLines.toNat).map fun l =>
        lineBytes l ++ [10]).flatten ++
      (body.map fun l => formatLoop pf cfg (lineBytes cfg.optDelimiter)
        (inferMerged body) ((fieldsFromExtents l (inferMerged body)).getD [])).flatten ++
      (footer.map fun l => lineBytes l ++ [10]).flatten =
      (((input.take cfg.optHeaderLines.toNat).map lineBytes ++
        footer.map lineBytes).map fun l => l ++ [10]).flatten := by
    rw [hbodyflat, List.append_nil, List.map_append, List.flatten_append]
    congr 1
    · rw [List.map_map]
      rfl
    · rw [List.map_map]
      rfl
  rw [hout, linesOf_flatten]
  intro l hl
  rcases List.mem_append.mp hl with hl2 | hl2
  · obtain ⟨l0, hl0, rfl⟩ := List.mem_map.mp hl2
    exact lineBytes_ne10 l0 (hnl l0 (List.mem_of_mem_take hl0))
  · obtain ⟨l0, hl0, rfl⟩ := List.mem_map.mp hl2
    exact lineBytes_ne10 l0 (hnl l0 (hfmem l0 hl0))

/-- C7 witness: the general parts instantiated at capacity 2 with three
pushes, and capacity 0. -/
theorem C7_delay_queue_witness :
    (pushAll (stateOf 2 []) [['a'], ['b'], ['c']]).2.get? 0 = some none ∧
    (pushAll (stateOf 2 []) [['a'], ['b'], ['c']]).2.get? 2 =
      some ([['a'], ['b'], ['c']].get? 0) ∧
    Drain (pushAll (stateOf 2 []) [['a'], ['b'], ['c']]).1 =
      ([['a'], ['b'], ['c']].drop (3 - min 2 3)).map some ∧
    QueueDequeue { items := [], i := 0, looped := false } ['z'] =
      ({ items := [], i := 0, looped := false }, some ['z']) := by
  have h := C7_delay_queue.1 2 (stateOf 2 []) (by decide)
    (newCircularBuffer_pos 2 (by decide)) [['a'], ['b'], ['c']]
  have h0 := C7_delay_queue.2.1 { items := [], i := 0, looped := false } rfl
  exact ⟨h.1 0 (by decide) (by decide), h.2.1 2 (by decide) (by decide),
    h.2.2, h0.1 ['z']⟩

theorem input_decomp (input : List (List Char)) (H F : Nat) :
    input = input.take H ++ (input.take (input.length - F)).drop H ++
      input.drop (max (input.length - F) H) := by
  by_cases hc : H ≤ input.length - F
  · rw [max_eq_left hc]
    conv_lhs => rw [← List.take_append_drop (input.length - F) input]
    congr 1
    conv_rhs => rw [show input.take H = (input.take (input.length - F)).take H from by
      rw [List.take_take, min_eq_left hc]]
    rw [List.take_append_drop]
  · push_neg at hc
    rw [max_eq_right (Nat.le_of_lt hc)]
    have hb : (input.take (input.length - F)).drop H = [] := by
      apply List.drop_eq_nil_of_le
      rw [List.length_take]
      omega
    rw [hb, List.append_nil, List.take_append_drop]

/-- C4 (amended): with non-negative header count H and footer count F, the
scan loop's accumulated extent set is exactly the fold of `mergeExtents`
over the per-line extent lists of the input lines after the first H and
before the last F — header and footer lines contribute nothing to column
inference — and the delay buffer retains exactly the excluded trailing
lines in original order; provided the formatting replay cannot panic
(`FormatSafe`), the run completes and its output ends with those footer
lines verbatim, in original order.  (The unamended claim also asserts the
footer is always emitted; the counterexample shows a panic can drop it.) -/
theorem C4_inference_exclusion_and_footer (pf : List Nat → Bool) (cfg : Config)
    (input : List (List Char)) (cb0 : circularBuffer)
    (hH : 0 ≤ cfg.optHeaderLines) (hF : 0 ≤ cfg.optFooterLines)
    (hcb : newCircularBuffer cfg.optFooterLines = some cb0) :
    (extentsLoop input cfg.optHeaderLines 0 cb0 [] [] []).2.2.1 =
      inferMerged ((input.take
        (input.length - cfg.optFooterLines.toNat)).drop cfg.optHeaderLines.toNat) ∧
    Drain (extentsLoop input cfg.optHeaderLines 0 cb0 [] [] []).1 =
      (input.drop (max (input.length - cfg.optFooterLines.toNat)
        cfg.optHeaderLines.toNat)).map some ∧
    (FormatSafe
        (inferMerged ((input.take
          (input.length - cfg.optFooterLines.toNat)).drop cfg.optHeaderLines.toNat))
        ((input.take
          (input.length - cfg.optFooterLines.toNat)).drop cfg.optHeaderLines.toNat) →
      ∃ p, extentsRun pf cfg input = .done (p ++
        ((input.drop (max (input.length - cfg.optFooterLines.toNat)
          cfg.optHeaderLines.toNat)).map fun l => lineBytes l ++ [10]).flatten)) := by
  obtain ⟨cbf, hloop, hdrain⟩ := extentsLoop_run cfg.optHeaderLines
    cfg.optFooterLines hH hF input cb0 hcb
  refine ⟨?_, ?_, ?_⟩
  · rw [hloop]
  · rw [hloop]
    exact hdrain
  · intro hsafe
    exact ⟨_, extentsRun_done pf cfg input _ _ _ hH hF rfl rfl rfl hsafe⟩

/-- C4 counterexample: with no header lines and one footer line, input
lines three-spaces then a: the body is the all-space line, inference yields
no extents, the formatting replay panics, and the run ends with no output
at all — the footer line a is never emitted, verbatim or otherwise. -/
theorem C4_counterexample :
    extentsRun (fun _ => false) ⟨0, 1, [' '], false, false⟩
      [[' ', ' ', ' '], ['a']] = .panicked [] ∧
    ([' ', ' ', ' '] : List Char) ≠ ['a'] := by
  exact ⟨rfl, by decide⟩

/-- C4 witness: a three-line run with one header line, one body line ab and
one footer line f, the buffer a fresh capacity-1 buffer. -/
theorem C4_inference_exclusion_and_footer_witness :
    ∃ p, extentsRun (fun _ => false) ⟨1, 1, [' '], false, false⟩
      [['h'], ['a', 'b'], ['f']] = .done (p ++
        (([['f']] : List (List Char)).map fun l => lineBytes l ++ [10]).flatten) := by
  have h := C4_inference_exclusion_and_footer (fun _ => false)
    ⟨1, 1, [' '], false, false⟩ [['h'], ['a', 'b'], ['f']]
    { items := [none], i := 0, looped := false } (by decide) (by decide) (by decide)
  exact h.2.2 (show ∀ l ∈ ([['a', 'b']] : List (List Char)),
    (1 : Int) ≤ (l.length : Int) from by decide)

/-- C8 (amended): when header and footer counts are non-negative, no input
line or delimiter character contains a newline, and the inferred extent set
of the body is non-empty with its first extent reachable on every body line
(the no-panic condition), the run completes and its output lines correspond
one-to-one and in order to the input lines: the header lines verbatim, then
one reformatted line per body line in original order, then the footer lines
verbatim.  (Unamended the claim fails: a run whose body lines are all empty
emits no output line for them at all.) -/
theorem C8_order_mirror (pf : List Nat → Bool) (cfg : Config)
    (input body footer : List (List Char)) (e0 : extent) (t : List extent)
    (hH : 0 ≤ cfg.optHeaderLines) (hF : 0 ≤ cfg.optFooterLines)
    (hnl : ∀ l ∈ input, ∀ c ∈ l, c.toNat ≠ 10)
    (hdel : ∀ c ∈ cfg.optDelimiter, c.toNat ≠ 10)
    (hbody : body = (input.take
      (input.length - cfg.optFooterLines.toNat)).drop cfg.optHeaderLines.toNat)
    (hfooter : footer = input.drop
      (max (input.length - cfg.optFooterLines.toNat) cfg.optHeaderLines.toNat))
    (hm : inferMerged body = e0 :: t)
    (hsafe : ∀ l ∈ body, e0.l ≤ (l.length : Int)) :
    ∃ out, extentsRun pf cfg input = .done out ∧
      linesOf out = (input.take cfg.optHeaderLines.toNat).map lineBytes ++
        body.map (bodyLineOut pf cfg (inferMerged body)) ++
        footer.map lineBytes ∧
      input = input.take cfg.optHeaderLines.toNat ++ body ++ footer := by
  obtain ⟨out, h1, h2⟩ := extentsRun_linesOf_nonempty pf cfg input body footer
    e0 t hH hF hnl hdel hbody hfooter hm hsafe
  refine ⟨out, h1, h2, ?_⟩
  rw [hbody, hfooter]
  exact input_decomp input cfg.optHeaderLines.toNat cfg.optFooterLines.toNat

/-- C8 counterexample: two empty input lines, no header or footer: the run
completes with an empty byte stream, so the output has zero lines while the
input has two — output lines are not one-to-one with input lines. -/
theorem C8_counterexample :
    extentsRun (fun _ => false) ⟨0, 0, [' '], false, false⟩
      ([[], []] : List (List Char)) = .done [] ∧
    linesOf ([] : List Nat) = [] ∧
    ([[], []] : List (List Char)).length = 2 := by
  exact ⟨rfl, rfl, rfl⟩

/-- C8 witness: the mirror equation at a three-line run with one header
line, one body line ab and one footer line f. -/
theorem C8_order_mirror_witness :
    ∃ out, extentsRun (fun _ => false) ⟨1, 1, [' '], false, false⟩
        [['h'], ['a', 'b'], ['f']] = .done out ∧
      linesOf out = ([['h']] : List (List Char)).map lineBytes ++
        ([['a', 'b']] : List (List Char)).map
          (bodyLineOut (fun _ => false) ⟨1, 1, [' '], false, false⟩
            (inferMerged [['a', 'b']])) ++
        ([['f']] : List (List Char)).map lineBytes ∧
      ([['h'], ['a', 'b'], ['f']] : List (List Char)) =
        [['h']] ++ [['a', 'b']] ++ [['f']] := by
  exact C8_order_mirror (fun _ => false) ⟨1, 1, [' '], false, false⟩
    [['h'], ['a', 'b'], ['f']] [['a', 'b']] [['f']] ⟨1, 2⟩ []
    (by decide) (by decide) (by decide) (by decide) (by decide) (by decide)
    (by decide) (by decide)

end Columnize
